import Mathlib

/-! The Definition Index of `joy` (golang/index/index.go).

A shallow embedding of the registry, the entry-point and runtime queries and
the identifier/selector resolution algorithm, followed by the properties
proved about them.

Conventions of the embedding

* A Go interface or pointer value that may be `nil` is an `Option`.
* A Go `(value, error)` result whose value is `nil` whenever the error is not
  is an `Except Err _`.
* A Go `map[string]V` is an `AList`: a list of key/value entries without
  duplicate keys.  The order of the entries stands for one possible iteration
  order of the map; functions that range over a map take the enumeration as
  an argument so that properties can be stated for every iteration order.
* The Go type checker (`go/types`, `go/loader`) is outside the repository; its
  answers are the fields of `Program`, `PackageInfo` and `Object`.
-/

namespace Joy

/-! ## The program model (go/ast, go/types, go/loader) -/

/-- The object of a named type: `(*types.Named).Obj()`, reduced to what
`typeToDef` reads: `Pkg()` (`none` for nil, else its `Path()`) and `Name()`. -/
structure TypeName where
  pkg : Option String
  name : String
  deriving DecidableEq, Repr

/-- Type descriptors, `types.Type`, one constructor per case of the type switch
of `typeToDef`.  `signature` is a `*types.Signature` whose `Recv()` is nil and
`method recv` one whose `Recv().Type()` is `recv`.  `array`, `struct` and
`tuple` are the remaining shapes of `go/types`, which reach the `default`
case. -/
inductive GoType where
  | basic (name : String)
  | interface (methods : List String)
  | slice (elem : GoType)
  | signature
  | method (recv : GoType)
  | named (obj : Option TypeName)
  | pointer (elem : GoType)
  | map (key elem : GoType)
  | chan (elem : GoType)
  | array (elem : GoType)
  | struct (fields : List String)
  | tuple
  deriving DecidableEq, Repr

/-- The method `(*types.Interface).Empty`: the interface has no methods. -/
def GoType.Empty (methods : List String) : Bool := methods.isEmpty

/-- Errors of the resolver.  The Go code builds them with `errors.New` and
`fmt.Errorf`; the offending type the message prints is kept as the payload.
`util` is an error returned by `util.GetIdentifier`. -/
inductive Err where
  /-- The message "DefinitionOf: no package found". -/
  | noPackage
  /-- The message "typeToDef: unhandled non-interface %s". -/
  | unhandledInterface (t : GoType)
  /-- The message "typeToDef: unhandled unnamed types.Named: %s". -/
  | unnamedNamed (t : GoType)
  /-- The message "typeToDef: unhandled type %T". -/
  | unhandledType (t : GoType)
  | util (msg : String)
  deriving DecidableEq, Repr

deriving instance DecidableEq for Except

/-- An identifier node, `*ast.Ident`; `pos` tells two occurrences of one name
apart, as the pointer does in Go. -/
structure Ident where
  name : String
  pos : Nat
  deriving DecidableEq, Repr

/-- Syntax nodes, `ast.Node`, as far as `DefinitionOf` tells them apart: a
selector expression, an identifier, and representatives of every other shape
(which all take the `default` branch). -/
inductive Node where
  | ident (id : Ident)
  | selectorExpr (x : Node) (sel : Ident)
  | callExpr (f : Node)
  | starExpr (x : Node)
  | basicLit (value : String)
  deriving DecidableEq, Repr

/-- The object an identifier denotes, `types.Object`, reduced to what
`identDefinition` reads: `Pkg()` (`none` for nil, else its `Path()`),
`Name()` and `Type()`. -/
structure Object where
  pkg : Option String
  name : String
  type : GoType
  deriving DecidableEq, Repr

/-- A loaded package, `*loader.PackageInfo`: `Pkg.Path()` and `ObjectOf`. -/
structure PackageInfo where
  path : String
  objectOf : Ident → Option Object

/-- The loaded program, `*loader.Program`: `Package(path)` (`none` for nil) and
`InitialPackages()`. -/
structure Program where
  package : String → Option PackageInfo
  initialPackages : List PackageInfo

/-- The method `(*types.Info).ObjectOf` on a possibly nil identifier: both of
its tables are keyed by non-nil identifiers, so nil denotes no object. -/
def PackageInfo.ObjectOf (info : PackageInfo) (n : Option Ident) : Option Object :=
  n.bind info.objectOf

/-! ## Definitions and the index -/

/-- Modelled from the spec: the interface `def.Definition` (package
`golang/def` is not among the sources).  A Definition is the record of what
its methods `ID`, `Name`, `Kind`, `Path`, `Exported`, `Omitted` and
`FromRuntime` return; `ref` is the identity of the Go value, so that two
Definitions answering alike stay distinct. -/
structure Definition where
  ref : Nat
  id : String
  name : String
  kind : String
  path : String
  exported : Bool
  omitted : Bool
  fromRuntime : Bool
  deriving DecidableEq, Repr

/-- A registry `map[string]def.Definition`. -/
abbrev DefMap := AList (fun _ : String => Definition)

/-- An import table `map[string]string`, alias to package path. -/
abbrev ImportMap := AList (fun _ : String => String)

/-- The type `Index`. -/
structure Index where
  program : Program
  defs : DefMap
  imports : AList (fun _ : String => ImportMap)

namespace Index

/-- The constructor `New`. -/
def New (program : Program) : Index :=
  { program := program, defs := ∅, imports := ∅ }

/-- The method `AddDefinition`: `i.defs[d.ID()] = d`. -/
def AddDefinition (i : Index) (d : Definition) : Index :=
  { i with defs := i.defs.insert d.id d }

/-- The method `AddImport`. -/
def AddImport (i : Index) (parentPath aliasName depPath : String) : Index :=
  match i.imports.lookup parentPath with
  | none => { i with imports := i.imports.insert parentPath ((∅ : ImportMap).insert aliasName depPath) }
  | some deps => { i with imports := i.imports.insert parentPath (deps.insert aliasName depPath) }

/-- The method `GetImports`. -/
def GetImports (i : Index) (parentPath : String) : ImportMap :=
  match i.imports.lookup parentPath with
  | none => ∅
  | some deps => deps

/-- The method `Get`: `i.defs[id]`, nil when the key is absent. -/
def Get (i : Index) (id : String) : Option Definition :=
  i.defs.lookup id

/-- The method `Link`: `i.defs[alias] = d`, for a non-nil `d`. -/
def Link (i : Index) (aliasName : String) (d : Definition) : Index :=
  { i with defs := i.defs.insert aliasName d }

end Index

/-! ## Sorting -/

/-- The order of Go strings, `a <= b`: lexicographic on the characters (for
UTF-8 the order of the bytes and of the code points agree). -/
def strLe (a b : String) : Prop := a.data ≤ b.data

instance strLe.decidable : DecidableRel strLe :=
  fun a b => inferInstanceAs (Decidable (a.data ≤ b.data))

instance strLe.isTotal : IsTotal String strLe := ⟨fun a b => le_total a.data b.data⟩

instance strLe.isTrans : IsTrans String strLe :=
  ⟨fun a _ _ hab hbc => le_trans (a := a.data) hab hbc⟩

instance strLe.isAntisymm : IsAntisymm String strLe :=
  ⟨fun _ _ hab hba => String.ext (le_antisymm hab hba)⟩

/-- The function `sort.Strings`: the ascending rearrangement of the slice.  The
order is total and antisymmetric, so every sorting algorithm returns this
list. -/
def sortStrings (l : List String) : List String :=
  l.insertionSort strLe

/-- The function `strings.Join(parts, " ")`. -/
def joinSpace (parts : List String) : String :=
  " ".intercalate parts

namespace Index

/-! ## Mains and Runtime -/

/-- The first loop of `Mains`: the IDs of the Definitions found under
`<path> main` for the initial packages, in enumeration order. -/
def mainIDs (i : Index) (initial : List PackageInfo) : List String :=
  initial.filterMap (fun info => (i.defs.lookup (info.path ++ " main")).map (fun d => d.id))

/-- The body of `Mains` for a given enumeration of the initial packages: the
IDs are sorted and each is looked up again in the registry (an entry is
`none` when that lookup yields nil). -/
def mainsFrom (i : Index) (initial : List PackageInfo) : List (Option Definition) :=
  (sortStrings (i.mainIDs initial)).map (fun id => i.defs.lookup id)

/-- The method `Mains`. -/
def Mains (i : Index) : List (Option Definition) :=
  i.mainsFrom i.program.initialPackages

/-- The first loop of `Runtime` for a given iteration order `iter` of the
registry: for every runtime Definition, its ID once per requested name equal
to its `Name()`. -/
def runtimeIDs (iter : List (Sigma fun _ : String => Definition)) (names : List String) :
    List String :=
  iter.flatMap (fun e =>
    if e.2.fromRuntime then (names.filter (fun name => e.2.name = name)).map (fun _ => e.2.id)
    else [])

/-- The body of `Runtime` for a given iteration order of the registry; the
second component is the error result. -/
def runtimeFrom (i : Index) (iter : List (Sigma fun _ : String => Definition))
    (names : List String) : List (Option Definition) × Option Err :=
  ((sortStrings (runtimeIDs iter names)).map (fun id => i.defs.lookup id), none)

/-- The method `Runtime`, iterating the registry in the order of its entries. -/
def Runtime (i : Index) (names : List String) : List (Option Definition) × Option Err :=
  i.runtimeFrom i.defs.entries names

/-- Every registered Definition is the one registered under its own ID: for
every entry `(k, d)` of the registry, `i.defs[d.ID()]` is `d`.  It holds in an
index filled by `AddDefinition` alone and also when `Link` only adds aliases
of Definitions that stay registered under their ID. -/
def SelfRegistered (i : Index) : Prop :=
  ∀ e ∈ i.defs.entries, i.defs.lookup e.2.id = some e.2

instance SelfRegistered.decidable (i : Index) : Decidable (SelfRegistered i) :=
  List.decidableBAll _ _

/-! ## Resolution -/

/-- The method `typeToDef`.  The index is not read, so it is not a parameter.
The named result `arr` is nil wherever it is returned unchanged. -/
def typeToDef (name : String) : GoType → Except Err (List String)
  | .basic _ => .ok []
  | .interface ms =>
    if GoType.Empty ms then .ok [] else .error (.unhandledInterface (.interface ms))
  | .slice elem => typeToDef name elem
  | .signature => .ok []
  | .method recv =>
    match typeToDef name recv with
    | .error e => .error e
    | .ok a =>
      match a with
      | [a0, a1] => .ok [a0, name, a1]
      | _ => .ok []
  | .named none => .error (.unnamedNamed (.named none))
  | .named (some obj) =>
    match obj.pkg with
    | none => .ok []
    | some path => .ok [path, obj.name]
  | .pointer elem => typeToDef name elem
  | .map _ _ => .ok []
  | .chan elem => typeToDef name elem
  | .array elem => .error (.unhandledType (.array elem))
  | .struct fs => .error (.unhandledType (.struct fs))
  | .tuple => .error (.unhandledType .tuple)

/-- The method `identDefinition`; `n` is `none` for a nil identifier. -/
def identDefinition (i : Index) (packagePath : String) (n : Option Ident) :
    Except Err (Option Definition) :=
  match i.program.package packagePath with
  | none => .error .noPackage
  | some info =>
    match info.ObjectOf n with
    | none => .ok none
    | some obj =>
      match obj.pkg with
      | none => .ok none
      | some pkgPath =>
        match i.defs.lookup (pkgPath ++ " " ++ obj.name) with
        | some d => .ok (some d)
        | none =>
          match typeToDef obj.name obj.type with
          | .error err => .error err
          | .ok ids => .ok (i.Get (joinSpace ids))

/-- The second half of `selectorDefinition`, from `util.GetIdentifier(n.X)` on:
the base of the selector is resolved and wins when it has a Definition,
otherwise the result `s` of the right-hand identifier is returned.  The helper
`util.GetIdentifier` is not among the sources and is the parameter
`getIdentifier`. -/
def selectorBase (getIdentifier : Node → Except Err (Option Ident)) (i : Index)
    (packagePath : String) (x : Node) (s : Option Definition) : Except Err (Option Definition) :=
  match getIdentifier x with
  | .error e => .error e
  | .ok id =>
    match i.identDefinition packagePath id with
    | .error e => .error e
    | .ok (some d) => .ok (some d)
    | .ok none => .ok s

/-- The method `selectorDefinition` on the selector `x.sel`. -/
def selectorDefinition (getIdentifier : Node → Except Err (Option Ident)) (i : Index)
    (packagePath : String) (x : Node) (sel : Ident) : Except Err (Option Definition) :=
  match i.identDefinition packagePath (some sel) with
  | .error e => .error e
  | .ok none => i.selectorBase getIdentifier packagePath x none
  | .ok (some s) =>
    if s.kind ≠ "STRUCT" then .ok (some s)
    else i.selectorBase getIdentifier packagePath x (some s)

/-- The method `DefinitionOf`. -/
def DefinitionOf (getIdentifier : Node → Except Err (Option Ident)) (i : Index)
    (packagePath : String) (n : Node) : Except Err (Option Definition) :=
  match n with
  | .selectorExpr x sel => i.selectorDefinition getIdentifier packagePath x sel
  | .ident id => i.identDefinition packagePath (some id)
  | t =>
    match getIdentifier t with
    | .error e => .error e
    | .ok none => .ok none
    | .ok (some id) => i.identDefinition packagePath (some id)


/-- The unwrapping the specification speaks of: pointer, slice and channel
wrappers are stripped until another shape is reached. -/
def unwrapSpec : GoType → GoType
  | .pointer elem => unwrapSpec elem
  | .slice elem => unwrapSpec elem
  | .chan elem => unwrapSpec elem
  | t => t

/-- The unwrapping of the specification through pointer, slice and channel
elements and through signature receivers, down to the descriptor that
decides the outcome. -/
def unwrapAllSpec : GoType → GoType
  | .pointer elem => unwrapAllSpec elem
  | .slice elem => unwrapAllSpec elem
  | .chan elem => unwrapAllSpec elem
  | .method recv => unwrapAllSpec recv
  | t => t

/-- The descriptors the specification lets `typeToDef` fail on: a non-empty
interface, a named type with no owner object, and every shape outside basic,
interface, slice, signature, named, pointer, map and channel. -/
def rejectedSpec : GoType → Bool
  | .interface ms => !ms.isEmpty
  | .named none => true
  | .array _ => true
  | .struct _ => true
  | .tuple => true
  | _ => false

/-- A sequence of `AddImport` calls, in the order of the list; an element is
(owner package, alias, imported path). -/
def addImports (l : List (String × String × String)) (i : Index) : Index :=
  l.foldl (fun acc e => acc.AddImport e.1 e.2.1 e.2.2) i

/-- The path the specification gives for the alias `a` of the package `p` after
the calls of `l`: that of the last call for `p` and `a`, if any. -/
def lastImport : List (String × String × String) → String → String → Option String
  | [], _, _ => none
  | e :: rest, p, a =>
    match lastImport rest p a with
    | some dep => some dep
    | none => if e.1 = p ∧ e.2.1 = a then some e.2.2 else none

/-- The indexes reachable from `New` by `AddDefinition` and `AddImport` calls
only. -/
inductive Reachable : Index → Prop
  | new (program : Program) : Reachable (New program)
  | addDefinition {i : Index} (d : Definition) : Reachable i → Reachable (i.AddDefinition d)
  | addImport {i : Index} (parentPath aliasName depPath : String) :
      Reachable i → Reachable (i.AddImport parentPath aliasName depPath)

/-- The registry key invariant: every registered key is the ID of the
Definition registered under it. -/
def KeyInvariant (i : Index) : Prop :=
  ∀ e ∈ i.defs.entries, e.2.id = e.1

instance KeyInvariant.decidable (i : Index) : Decidable (KeyInvariant i) :=
  List.decidableBAll _ _

/-- How often the Definition `d` occurs in a result list. -/
def occurrences (d : Definition) (l : List (Option Definition)) : Nat :=
  (l.filter (fun e => decide (e = some d))).length

end Index

/-! ## Value Definitions (golang/defs/value.go) -/

/-- The result `state` of the walk `process(index, d, node)` of package `defs`,
reduced to the fields `values.process` copies; its declaration is not among
the sources.  `tag` is `none` for a nil `*structtag.Tag`. -/
structure WalkState where
  async : Bool
  deps : List Definition
  imports : ImportMap
  omit_ : Bool
  tag : Option String

/-- The struct `values`.  `node` is the list `Names` of the `*ast.ValueSpec`;
the pointer `index` and the field `kind`, which is never assigned, are left
out.  The Go field `omit` is `omit_` here and in `WalkState`. -/
structure Values where
  exported : Bool
  path : String
  name : String
  id : String
  node : List Ident
  processed : Bool
  deps : List Definition
  imports : ImportMap
  async : Bool
  omit_ : Bool
  tag : Option String

namespace Values

/-- The function `strings.Join(names, ",")`. -/
def joinComma (names : List String) : String :=
  ",".intercalate names

/-- The constructor `Value` on the value spec with the names `names`.  The
method `types.Object.Exported` of `go/types` is the parameter `isExported`.
The result is `none` when a name denotes no object, where the Go code
dereferences nil; the error result of the Go function is always nil. -/
def Value (isExported : Object → Bool) (info : PackageInfo) (names : List Ident) :
    Option Values :=
  if names.all (fun ident => (info.objectOf ident).isSome) then
    some
      { exported := (names.filterMap info.objectOf).any isExported
        path := info.path
        name := joinComma (names.map (fun ident => ident.name))
        id := joinSpace [info.path, joinComma (names.map (fun ident => ident.name))]
        node := names
        processed := false
        deps := []
        imports := ∅
        async := false
        omit_ := false
        tag := none }
  else none

/-- The method `ID`. -/
def ID (d : Values) : String := d.id

/-- The method `Name`. -/
def Name (d : Values) : String := d.name

/-- The method `Kind`. -/
def Kind (_ : Values) : String := "VALUE"

/-- The method `Path`. -/
def Path (d : Values) : String := d.path

/-- The method `Exported`. -/
def Exported (d : Values) : Bool := d.exported

/-- The method `Omitted`. -/
def Omitted (_ : Values) : Bool := false

/-- The method `FromRuntime`. -/
def FromRuntime (_ : Values) : Bool := false

/-- The value Definition as the index sees it through the interface
`def.Definition`; `ref` is the identity of the pointer. -/
def toDefinition (ref : Nat) (d : Values) : Definition :=
  { ref := ref, id := d.ID, name := d.Name, kind := d.Kind, path := d.Path
    exported := d.Exported, omitted := d.Omitted, fromRuntime := d.FromRuntime }

/-- The assignments of `values.process` after a successful walk. -/
def copyState (d : Values) (state : WalkState) : Values :=
  { d with
    processed := true
    async := state.async
    deps := state.deps
    imports := state.imports
    omit_ := state.omit_
    tag := state.tag }

end Values

/-- Why an evaluation stops without a Go result: the bound on the depth of
nested calls is used up, or a method is called on a reference that is not in
the heap. -/
inductive Stop where
  | outOfFuel
  | nilReceiver
  deriving DecidableEq, Repr

/-- The mutable world of a compilation: the value Definitions, addressed by
their position in `heap`, and, as a record for the properties below, the
references of the Definitions whose walk was started, latest first. -/
structure World where
  heap : List Values
  walks : List Nat

/-- The two results `(defs, err)` of `Dependencies()`. -/
abbrev DepResult := List Definition × Option Err

/-- A call of `Dependencies()` on the Definition at a reference. -/
abbrev Call := World → Nat → Except Stop (World × DepResult)

/-- The walk `process(d.index, d, d.node)` of package `defs`, which is not among
the sources: any function of the world and of the reference of the Definition
walked that may call `Dependencies()` on Definitions, the walked one
included, through its first argument, and returns the state or an error. -/
abbrev Walk := Call → World → Nat → Except Stop (World × Except Err WalkState)

namespace Values

/-- The method `values.process` on the Definition at `r`; `call` is what a
`Dependencies()` call made by the walk runs.  The walk is started first and the
fields, `processed` among them, are assigned after it returned no error. -/
def process (walk : Walk) (call : Call) (w : World) (r : Nat) :
    Except Stop (World × Option Err) :=
  match walk call { w with walks := r :: w.walks } r with
  | .error s => .error s
  | .ok (w', .error e) => .ok (w', some e)
  | .ok (w', .ok state) =>
    match w'.heap[r]? with
    | none => .error .nilReceiver
    | some d => .ok ({ w' with heap := w'.heap.set r (d.copyState state) }, none)

/-- The method `values.Dependencies` on the Definition at `r`, with a bound
`fuel` on the depth of nested `Dependencies()` calls. -/
def Dependencies (walk : Walk) : Nat → World → Nat → Except Stop (World × DepResult)
  | 0, _, _ => .error .outOfFuel
  | fuel + 1, w, r =>
    match w.heap[r]? with
    | none => .error .nilReceiver
    | some d =>
      if d.processed then .ok (w, (d.deps, none))
      else
        match process walk (Dependencies walk fuel) w r with
        | .error s => .error s
        | .ok (w', some e) => .ok (w', ([], some e))
        | .ok (w', none) =>
          match w'.heap[r]? with
          | none => .error .nilReceiver
          | some d' => .ok (w', (d'.deps, none))

/-- The results of `n` successive `Dependencies()` calls on the Definition at
`r`, in call order. -/
def DependenciesTimes (walk : Walk) (fuel : Nat) :
    Nat → World → Nat → Except Stop (World × List DepResult)
  | 0, w, _ => .ok (w, [])
  | n + 1, w, r =>
    match Dependencies walk fuel w r with
    | .error s => .error s
    | .ok (w', res) =>
      match DependenciesTimes walk fuel n w' r with
      | .error s => .error s
      | .ok (w'', rest) => .ok (w'', res :: rest)

/-- What `process` and `Dependencies` make of the outcome of the walk started
on the Definition at `r`: an error of the walk is returned with a nil list;
after a walk without error the state is copied into the Definition, the flag
`processed` set, and the list of the state returned. -/
def finish (r : Nat) : Except Stop (World × Except Err WalkState) → Except Stop (World × DepResult)
  | .error s => .error s
  | .ok (w', .error e) => .ok (w', ([], some e))
  | .ok (w', .ok state) =>
    match w'.heap[r]? with
    | none => .error .nilReceiver
    | some d' => .ok ({ w' with heap := w'.heap.set r (d'.copyState state) }, (state.deps, none))

end Values

/-! ## Sample data -/

/-- A sample identifier-of projection, standing for `util.GetIdentifier`. -/
def sampleGetIdentifier : Node → Except Err (Option Ident)
  | .ident id => .ok (some id)
  | .selectorExpr _ sel => .ok (some sel)
  | .callExpr f => sampleGetIdentifier f
  | .starExpr x => sampleGetIdentifier x
  | .basicLit _ => .ok none

/-- The named struct type `app.S`. -/
def sampleS : GoType := .named (some ⟨some "app", "S"⟩)

/-- Objects of the sample package `app`: the method `M` on `*S`, the function
`F`, the local variable `v` of type `S`, the fields `N` (an int), `A` (an
array) and the local variable `w` of a struct literal type. -/
def sampleObjectOf (id : Ident) : Option Object :=
  if id.name = "M" then some ⟨some "app", "M", .method (.pointer sampleS)⟩
  else if id.name = "F" then some ⟨some "app", "F", .signature⟩
  else if id.name = "v" then some ⟨some "app", "v", sampleS⟩
  else if id.name = "N" then some ⟨some "app", "N", .basic "int"⟩
  else if id.name = "A" then some ⟨some "app", "A", .array (.basic "int")⟩
  else if id.name = "w" then some ⟨some "app", "w", .struct ["N"]⟩
  else none

def sampleInfo : PackageInfo := { path := "app", objectOf := sampleObjectOf }

def sampleProgram : Program :=
  { package := fun p => if p = "app" then some sampleInfo else none
    initialPackages := [sampleInfo] }

def sampleMethod : Definition := ⟨1, "app M S", "M", "METHOD", "app", true, false, false⟩
def sampleStruct : Definition := ⟨2, "app S", "S", "STRUCT", "app", true, false, false⟩
def sampleFunc : Definition := ⟨3, "app F", "F", "FUNCTION", "app", true, false, false⟩
def sampleClash : Definition := ⟨4, "app M", "M", "FUNCTION", "app", true, false, false⟩

/-- The sample index: `S`, its method `M` and the function `F` registered. -/
def sampleIndex : Index :=
  (((Index.New sampleProgram).AddDefinition sampleStruct).AddDefinition sampleMethod).AddDefinition
    sampleFunc

/-- The sample index with a package-level function `M` registered as well. -/
def clashIndex : Index := sampleIndex.AddDefinition sampleClash

/-- A runtime Definition named `main` whose ID is registered nowhere. -/
def strayMain : Definition := ⟨10, "elsewhere main", "main", "FUNCTION", "app", false, false, true⟩

/-- The index after `Link("app main", strayMain)` alone. -/
def linkIndex : Index := (Index.New sampleProgram).Link "app main" strayMain

/-- A program whose initial packages are `app` and `lib`. -/
def twoProgram : Program :=
  { package := fun _ => none
    initialPackages := [⟨"app", fun _ => none⟩, ⟨"lib", fun _ => none⟩] }

def aliasB : Definition := ⟨11, "b", "Foo", "FUNCTION", "app", false, false, true⟩
def aliasC : Definition := ⟨12, "c", "Foo", "FUNCTION", "lib", false, false, true⟩
def underB : Definition := ⟨13, "z", "Bar", "FUNCTION", "app", false, false, false⟩
def underC : Definition := ⟨14, "a", "Baz", "FUNCTION", "lib", false, false, false⟩

/-- The index after `Link("app main", aliasB)`, `Link("lib main", aliasC)`,
`Link("b", underB)` and `Link("c", underC)`. -/
def swapIndex : Index :=
  ((((Index.New twoProgram).Link "app main" aliasB).Link "lib main" aliasC).Link "b" underB).Link
    "c" underC

def rtFoo : Definition := ⟨20, "runtime Foo", "Foo", "FUNCTION", "runtime", true, false, true⟩
def rtBar : Definition := ⟨21, "runtime Bar", "Bar", "FUNCTION", "runtime", true, false, true⟩
def appMain : Definition := ⟨22, "app main", "main", "FUNCTION", "app", false, false, false⟩
def libMain : Definition := ⟨23, "lib main", "main", "FUNCTION", "lib", false, false, false⟩
def depMain : Definition := ⟨24, "dep main", "main", "FUNCTION", "dep", false, false, false⟩
def userFoo : Definition := ⟨25, "app Foo", "Foo", "FUNCTION", "app", true, false, false⟩

/-- An index filled by `AddDefinition` alone: the entry symbols of the initial
packages `lib` and `app` and of the transitively loaded `dep`, two runtime
Definitions and a user function named like one of them. -/
def builtIndex : Index :=
  ((((((Index.New twoProgram).AddDefinition rtFoo).AddDefinition libMain).AddDefinition
    depMain).AddDefinition rtBar).AddDefinition appMain).AddDefinition userFoo

/-- A Definition registered under the empty ID by a link. -/
def emptyKeyDef : Definition := ⟨30, "app Stray", "Stray", "FUNCTION", "app", true, false, false⟩

/-- The sample index after `Link("", emptyKeyDef)`. -/
def emptyKeyIndex : Index := sampleIndex.Link "" emptyKeyDef

/-- A program with two initial packages of the same path `app`, as the loader
creates for two file arguments of one directory. -/
def dupProgram : Program :=
  { package := fun _ => none
    initialPackages := [⟨"app", fun _ => none⟩, ⟨"app", fun _ => none⟩] }

/-- The index of `dupProgram` after `AddDefinition(appMain)`. -/
def dupIndex : Index := (Index.New dupProgram).AddDefinition appMain

/-- A package `app` with the variables `x`, `Y`, `a` and `b`, all ints. -/
def valueInfo : PackageInfo :=
  { path := "app"
    objectOf := fun id =>
      if id.name = "x" ∨ id.name = "Y" ∨ id.name = "a" ∨ id.name = "b" then
        some ⟨some "app", id.name, .basic "int"⟩
      else none }

def valueProgram : Program :=
  { package := fun p => if p = "app" then some valueInfo else none
    initialPackages := [valueInfo] }

/-- A sample `types.Object.Exported`: the name starts with an upper-case
letter. -/
def sampleExported (o : Object) : Bool := o.name.front.isUpper

/-- The struct `values` that `Value` builds for `var x = ...`. -/
def sampleValue : Values :=
  { exported := false, path := "app", name := "x", id := "app x", node := [⟨"x", 1⟩]
    processed := false, deps := [], imports := ∅, async := false, omit_ := false, tag := none }

/-- The struct `values` that `Value` builds for `var a, b = ...`. -/
def pairValue : Values :=
  { exported := false, path := "app", name := "a,b", id := "app a,b"
    node := [⟨"a", 1⟩, ⟨"b", 2⟩]
    processed := false, deps := [], imports := ∅, async := false, omit_ := false, tag := none }

/-- A world with the one value Definition `x`, not yet processed. -/
def sampleWorld : World := { heap := [sampleValue], walks := [] }

/-- A walk that fails without calling back. -/
def failingWalk : Walk := fun _ w _ => .ok (w, .error (.util "unresolved"))

/-- A walk that succeeds without calling back, with the dependency `rtFoo` and
the omit flag set. -/
def omitWalk : Walk := fun _ w _ =>
  .ok (w, .ok { async := false, deps := [rtFoo], imports := ∅, omit_ := true, tag := none })

/-- The world after the successful walk `omitWalk` of `x`. -/
def processedWorld : World :=
  { heap := [sampleValue.copyState
      { async := false, deps := [rtFoo], imports := ∅, omit_ := true, tag := none }]
    walks := [0] }

/-- Two value Definitions at the references 0 and 1 that refer to each other. -/
def mutualWorld : World := { heap := [sampleValue, { sampleValue with name := "Y", id := "app Y" }], walks := [] }

/-- A walk for `mutualWorld`: the walk of one Definition calls `Dependencies()`
on the other one and lists it. -/
def mutualWalk : Walk := fun call w r =>
  match call w (1 - r) with
  | .error s => .error s
  | .ok (w', (_, some e)) => .ok (w', .error e)
  | .ok (w', (_, none)) =>
    .ok (w', .ok { async := false, deps := [], imports := ∅, omit_ := false, tag := none })

/-! ## Properties of `typeToDef` and of the resolver -/

namespace Index

theorem joinSpace_nil : joinSpace [] = "" := rfl

theorem joinSpace_two (a b : String) : joinSpace [a, b] = a ++ " " ++ b := rfl

theorem joinSpace_three (a b c : String) : joinSpace [a, b, c] = a ++ " " ++ b ++ " " ++ c := rfl

theorem typeToDef_unwrapSpec (name : String) (t : GoType) :
    typeToDef name t = typeToDef name (unwrapSpec t) := by
  induction t with
  | pointer elem ih => simpa [typeToDef, unwrapSpec] using ih
  | slice elem ih => simpa [typeToDef, unwrapSpec] using ih
  | chan elem ih => simpa [typeToDef, unwrapSpec] using ih
  | _ => simp [unwrapSpec]

/-- C9: `typeToDef` is transparent to pointer, slice and channel wrappers: for
every name and type descriptor `t` the three wrapped descriptors give the key
and the error outcome of `t` itself; in particular a pointer to a named type
owned by a package gives the key `[ownerPackagePath, ownerName]` of the bare
named type. -/
theorem typeToDef_wrapper_transparent (name : String) (t : GoType) :
    typeToDef name (.pointer t) = typeToDef name t ∧
    typeToDef name (.slice t) = typeToDef name t ∧
    typeToDef name (.chan t) = typeToDef name t ∧
    ∀ (p s : String),
      typeToDef name (.pointer (.named (some ⟨some p, s⟩))) = .ok [p, s] ∧
      typeToDef name (.named (some ⟨some p, s⟩)) = .ok [p, s] := by
  refine ⟨?_, ?_, ?_, ?_⟩
  · simp [typeToDef]
  · simp [typeToDef]
  · simp [typeToDef]
  · intro p s
    simp [typeToDef]

/-- C10: for a signature whose receiver type unwraps to the named type `S` of
package `p`, `typeToDef M` returns `[p, M, S]`; a signature without receiver,
or whose receiver yields a key that is not two-part, returns no key and no
error; and `identDefinition` on an identifier denoting such a method, with
nothing registered under `<pkg> <name>`, succeeds with exactly
`Get("p M S")`. -/
theorem typeToDef_method_key (M p S : String) (recv : GoType)
    (hrecv : unwrapSpec recv = .named (some ⟨some p, S⟩)) :
    typeToDef M (.method recv) = .ok [p, M, S] ∧
    typeToDef M .signature = .ok [] ∧
    (∀ (r : GoType) (a : List String), typeToDef M r = .ok a → a.length ≠ 2 →
      typeToDef M (.method r) = .ok []) ∧
    (∀ (i : Index) (packagePath q : String) (info : PackageInfo) (n : Ident),
      i.program.package packagePath = some info →
      info.objectOf n = some ⟨some q, M, .method recv⟩ →
      i.Get (q ++ " " ++ M) = none →
      i.identDefinition packagePath (some n) = .ok (i.Get (p ++ " " ++ M ++ " " ++ S))) := by
  have hkey : typeToDef M (.method recv) = .ok [p, M, S] := by
    have h := typeToDef_unwrapSpec M recv
    rw [hrecv] at h
    simp only [typeToDef] at h
    simp [typeToDef, h]
  refine ⟨hkey, by simp [typeToDef], ?_, ?_⟩
  · intro r a ha hlen
    simp only [typeToDef, ha]
    match a, hlen with
    | [], _ => rfl
    | [_], _ => rfl
    | [_, _], h => exact absurd rfl h
    | _ :: _ :: _ :: _, _ => rfl
  · intro i packagePath q info n hinfo hobj hget
    have hget2 : AList.lookup (q ++ " " ++ M) i.defs = none := hget
    simp [identDefinition, hinfo, PackageInfo.ObjectOf, hobj, hget2, hkey, joinSpace_three]

/-- C10, at the sample package: the method `M` on `*S` resolves to the
Definition registered under `app M S`. -/
theorem typeToDef_method_key_witness :
    typeToDef "M" (.method (.pointer sampleS)) = .ok ["app", "M", "S"] ∧
    sampleIndex.identDefinition "app" (some ⟨"M", 7⟩) = .ok (some sampleMethod) :=
  have h := typeToDef_method_key "M" "app" "S" (.pointer sampleS) (by decide)
  ⟨h.1, (h.2.2.2 sampleIndex "app" "app" sampleInfo ⟨"M", 7⟩ rfl (by decide) (by decide)).trans
    (by decide)⟩

/-- C1: `selectorDefinition` follows the tie-break.  With `sel` the result of
`identDefinition` on the right-hand identifier and `base` the result of
`identDefinition` on the identifier of the left-hand expression: an error of
the first step is the error of the call; a present `sel` whose Kind is not
STRUCT is the result; otherwise (absent or STRUCT) an error of the base step
(from the identifier-of projection or from `identDefinition`) is the error of
the call, a present `base` is the result, and an absent `base` gives `sel`. -/
theorem selectorDefinition_tie_break (getIdentifier : Node → Except Err (Option Ident))
    (i : Index) (packagePath : String) (x : Node) (y : Ident) :
    (∀ e, i.identDefinition packagePath (some y) = .error e →
      i.selectorDefinition getIdentifier packagePath x y = .error e) ∧
    (∀ d, i.identDefinition packagePath (some y) = .ok (some d) → d.kind ≠ "STRUCT" →
      i.selectorDefinition getIdentifier packagePath x y = .ok (some d)) ∧
    (∀ sel, i.identDefinition packagePath (some y) = .ok sel →
      (∀ d, sel = some d → d.kind = "STRUCT") →
      (∀ e, getIdentifier x = .error e →
        i.selectorDefinition getIdentifier packagePath x y = .error e) ∧
      (∀ id, getIdentifier x = .ok id →
        (∀ e, i.identDefinition packagePath id = .error e →
          i.selectorDefinition getIdentifier packagePath x y = .error e) ∧
        (∀ b, i.identDefinition packagePath id = .ok (some b) →
          i.selectorDefinition getIdentifier packagePath x y = .ok (some b)) ∧
        (i.identDefinition packagePath id = .ok none →
          i.selectorDefinition getIdentifier packagePath x y = .ok sel))) := by
  refine ⟨?_, ?_, ?_⟩
  · intro e he
    simp [selectorDefinition, he]
  · intro d hd hk
    simp [selectorDefinition, hd, hk]
  · intro sel hsel hstruct
    have hred : i.selectorDefinition getIdentifier packagePath x y =
        i.selectorBase getIdentifier packagePath x sel := by
      cases sel with
      | none => simp [selectorDefinition, hsel]
      | some d => simp [selectorDefinition, hsel, hstruct d rfl]
    rw [hred]
    refine ⟨?_, ?_⟩
    · intro e he
      simp [selectorBase, he]
    · intro id hid
      refine ⟨?_, ?_, ?_⟩
      · intro e he
        simp [selectorBase, hid, he]
      · intro b hb
        simp [selectorBase, hid, hb]
      · intro hb
        simp [selectorBase, hid, hb]

/-- C1, at the sample package: `v.N` (the field has no Definition, the base
`v` resolves to the struct `S`) gives the base, and `v.M` gives the method. -/
theorem selectorDefinition_tie_break_witness :
    sampleIndex.selectorDefinition sampleGetIdentifier "app" (.ident ⟨"v", 1⟩) ⟨"N", 2⟩ =
      .ok (some sampleStruct) ∧
    sampleIndex.selectorDefinition sampleGetIdentifier "app" (.ident ⟨"v", 1⟩) ⟨"M", 2⟩ =
      .ok (some sampleMethod) :=
  have hN := selectorDefinition_tie_break sampleGetIdentifier sampleIndex "app"
    (.ident ⟨"v", 1⟩) ⟨"N", 2⟩
  have hM := selectorDefinition_tie_break sampleGetIdentifier sampleIndex "app"
    (.ident ⟨"v", 1⟩) ⟨"M", 2⟩
  ⟨((hN.2.2 none (by decide) (by simp)).2 (some ⟨"v", 1⟩) rfl).2.1 sampleStruct (by decide),
   hM.2.1 sampleMethod (by decide) (by decide)⟩

/-- C3: for a selector `pkg.Func` whose right-hand identifier denotes an object
named `f` of package `q`, with a function Definition (its Kind is not STRUCT)
registered under `q f`, `DefinitionOf` returns that Definition, whatever the
left-hand expression is and whatever the identifier-of projection answers. -/
theorem definitionOf_pkg_func (getIdentifier : Node → Except Err (Option Ident))
    (i : Index) (packagePath q f : String) (info : PackageInfo) (x : Node) (y : Ident)
    (t : GoType) (d : Definition)
    (hinfo : i.program.package packagePath = some info)
    (hobj : info.objectOf y = some ⟨some q, f, t⟩)
    (hreg : i.Get (q ++ " " ++ f) = some d)
    (hkind : d.kind ≠ "STRUCT") :
    i.DefinitionOf getIdentifier packagePath (.selectorExpr x y) = .ok (some d) := by
  have hreg2 : AList.lookup (q ++ " " ++ f) i.defs = some d := hreg
  have hsel : i.identDefinition packagePath (some y) = .ok (some d) := by
    simp [identDefinition, hinfo, PackageInfo.ObjectOf, hobj, hreg2]
  simp [DefinitionOf, selectorDefinition, hsel, hkind]

/-- C3, at the sample package: `w.F` resolves to the function `F` although the
base `w`, of a struct literal type, cannot be resolved. -/
theorem definitionOf_pkg_func_witness :
    sampleIndex.DefinitionOf sampleGetIdentifier "app" (.selectorExpr (.ident ⟨"w", 1⟩) ⟨"F", 2⟩) =
      .ok (some sampleFunc) ∧
    sampleIndex.identDefinition "app" (some ⟨"w", 1⟩) = .error (.unhandledType (.struct ["N"])) :=
  ⟨definitionOf_pkg_func sampleGetIdentifier sampleIndex "app" "app" "F" sampleInfo
    (.ident ⟨"w", 1⟩) ⟨"F", 2⟩ .signature sampleFunc rfl (by decide) (by decide) (by decide),
   by decide⟩

/-- C2, as stated, fails: in the sample package with a package-level function
`M` registered under `app M` next to the method `M` of `*S` (registered under
`app M S`) and the struct `S` (under `app S`), `DefinitionOf` on `v.M`, whose
right-hand identifier denotes the method, returns the function. -/
theorem definitionOf_struct_method_counterexample :
    (clashIndex.program.package "app").map (fun info => info.objectOf ⟨"M", 2⟩) =
      some (some ⟨some "app", "M", .method (.pointer (.named (some ⟨some "app", "S"⟩)))⟩) ∧
    clashIndex.Get "app M S" = some sampleMethod ∧
    clashIndex.Get "app S" = some sampleStruct ∧
    clashIndex.DefinitionOf sampleGetIdentifier "app"
      (.selectorExpr (.ident ⟨"v", 1⟩) ⟨"M", 2⟩) = .ok (some sampleClash) ∧
    sampleClash ≠ sampleMethod := by
  decide

/-- C2, amended: for a selector whose right-hand identifier denotes a method
`M` with receiver type `S` or `*S`, `S` a named type of package `p`, with a
Method Definition (Kind not STRUCT) registered under `p M S`, the Type
Definition of `S` (Kind STRUCT) under `p S` and nothing registered under
`p M`, `DefinitionOf` returns the Method Definition, which is not the Type
Definition of `S`. -/
theorem definitionOf_struct_method (getIdentifier : Node → Except Err (Option Ident))
    (i : Index) (packagePath p M S : String) (info : PackageInfo) (x : Node) (y : Ident)
    (recv : GoType) (md sd : Definition)
    (hinfo : i.program.package packagePath = some info)
    (hobj : info.objectOf y = some ⟨some p, M, .method recv⟩)
    (hrecv : recv = .named (some ⟨some p, S⟩) ∨ recv = .pointer (.named (some ⟨some p, S⟩)))
    (hmethod : i.Get (p ++ " " ++ M ++ " " ++ S) = some md)
    (hmkind : md.kind ≠ "STRUCT")
    (_hstruct : i.Get (p ++ " " ++ S) = some sd)
    (hskind : sd.kind = "STRUCT")
    (hfree : i.Get (p ++ " " ++ M) = none) :
    i.DefinitionOf getIdentifier packagePath (.selectorExpr x y) = .ok (some md) ∧
    i.DefinitionOf getIdentifier packagePath (.selectorExpr x y) ≠ .ok (some sd) := by
  have hfree2 : AList.lookup (p ++ " " ++ M) i.defs = none := hfree
  have hkey : typeToDef M (.method recv) = .ok [p, M, S] := by
    rcases hrecv with h | h <;> simp [h, typeToDef]
  have hsel : i.identDefinition packagePath (some y) = .ok (some md) := by
    simp [identDefinition, hinfo, PackageInfo.ObjectOf, hobj, hfree2, hkey, joinSpace_three,
      hmethod]
  have hres : i.DefinitionOf getIdentifier packagePath (.selectorExpr x y) = .ok (some md) := by
    simp [DefinitionOf, selectorDefinition, hsel, hmkind]
  refine ⟨hres, ?_⟩
  rw [hres]
  intro h
  have hEq : md = sd := by simpa using h
  exact hmkind (hEq ▸ hskind)

/-- C2, amended, at the sample package: `v.M` resolves to the method. -/
theorem definitionOf_struct_method_witness :
    sampleIndex.DefinitionOf sampleGetIdentifier "app" (.selectorExpr (.ident ⟨"v", 1⟩) ⟨"M", 2⟩) =
      .ok (some sampleMethod) :=
  (definitionOf_struct_method sampleGetIdentifier sampleIndex "app" "app" "M" "S" sampleInfo
    (.ident ⟨"v", 1⟩) ⟨"M", 2⟩ (.pointer sampleS) sampleMethod sampleStruct rfl (by decide)
    (Or.inr rfl) (by decide) (by decide) (by decide) (by decide) (by decide)).1

/-- C4, as stated, fails: in the sample package, where `v` is a variable of the
named struct type `S`, `S` is registered under `app S` and the field `A`, an
array, has no Definition of its own, `DefinitionOf` on `v.A` fails with the
error of `typeToDef` for an unhandled type. -/
theorem definitionOf_struct_field_counterexample :
    (sampleIndex.program.package "app").map (fun info => info.objectOf ⟨"v", 1⟩) =
      some (some ⟨some "app", "v", .named (some ⟨some "app", "S"⟩)⟩) ∧
    (sampleIndex.program.package "app").map (fun info => info.objectOf ⟨"A", 2⟩) =
      some (some ⟨some "app", "A", .array (.basic "int")⟩) ∧
    sampleIndex.Get "app S" = some sampleStruct ∧
    sampleIndex.Get "app A" = none ∧
    sampleIndex.DefinitionOf sampleGetIdentifier "app"
      (.selectorExpr (.ident ⟨"v", 1⟩) ⟨"A", 2⟩) = .error (.unhandledType (.array (.basic "int"))) := by
  decide

/-- C4, amended: for a selector `v.f` where the identifier-of projection gives
`v` itself, `v` is a variable of the named type `S` of package `p` with no
Definition registered under its own name, a Definition `sd` is registered
under `p S` and the field `f` has no Definition of its own: when `typeToDef`
gives a key for the type of the field and no Definition, or a STRUCT one, is
registered under it, `DefinitionOf` returns `sd` without error; when it gives
a key under which a Definition that is not a STRUCT is registered, that
Definition is returned; when it fails, `DefinitionOf` fails with its
error. -/
theorem definitionOf_struct_field (getIdentifier : Node → Except Err (Option Ident))
    (i : Index) (packagePath p S q v f : String) (info : PackageInfo) (sv y : Ident)
    (ftype : GoType) (sd : Definition)
    (hinfo : i.program.package packagePath = some info)
    (hgi : getIdentifier (.ident sv) = .ok (some sv))
    (hvar : info.objectOf sv = some ⟨some q, v, .named (some ⟨some p, S⟩)⟩)
    (hvarfree : i.Get (q ++ " " ++ v) = none)
    (hstruct : i.Get (p ++ " " ++ S) = some sd)
    (hfield : info.objectOf y = some ⟨some p, f, ftype⟩)
    (hfieldfree : i.Get (p ++ " " ++ f) = none) :
    (∀ key, typeToDef f ftype = .ok key →
      (∀ d, i.Get (joinSpace key) = some d → d.kind = "STRUCT") →
      i.DefinitionOf getIdentifier packagePath (.selectorExpr (.ident sv) y) = .ok (some sd)) ∧
    (∀ key d, typeToDef f ftype = .ok key → i.Get (joinSpace key) = some d →
      d.kind ≠ "STRUCT" →
      i.DefinitionOf getIdentifier packagePath (.selectorExpr (.ident sv) y) = .ok (some d)) ∧
    (∀ e, typeToDef f ftype = .error e →
      i.DefinitionOf getIdentifier packagePath (.selectorExpr (.ident sv) y) = .error e) := by
  have hvarfree2 : AList.lookup (q ++ " " ++ v) i.defs = none := hvarfree
  have hfieldfree2 : AList.lookup (p ++ " " ++ f) i.defs = none := hfieldfree
  have hbase : i.identDefinition packagePath (some sv) = .ok (some sd) := by
    simp [identDefinition, hinfo, PackageInfo.ObjectOf, hvar, hvarfree2, typeToDef,
      joinSpace_two, hstruct]
  have hselBase : ∀ s, i.selectorBase getIdentifier packagePath (.ident sv) s = .ok (some sd) := by
    intro s
    simp [selectorBase, hgi, hbase]
  refine ⟨?_, ?_, ?_⟩
  · intro key hkey hk
    have hsel : i.identDefinition packagePath (some y) = .ok (i.Get (joinSpace key)) := by
      simp [identDefinition, hinfo, PackageInfo.ObjectOf, hfield, hfieldfree2, hkey]
    cases hg : i.Get (joinSpace key) with
    | none =>
      rw [hg] at hsel
      simp [DefinitionOf, selectorDefinition, hsel, hselBase]
    | some d =>
      rw [hg] at hsel
      simp [DefinitionOf, selectorDefinition, hsel, hselBase, hk d hg]
  · intro key d hkey hg hk
    have hsel : i.identDefinition packagePath (some y) = .ok (some d) := by
      simp [identDefinition, hinfo, PackageInfo.ObjectOf, hfield, hfieldfree2, hkey, hg]
    simp [DefinitionOf, selectorDefinition, hsel, hk]
  · intro e he
    have hsel : i.identDefinition packagePath (some y) = .error e := by
      simp [identDefinition, hinfo, PackageInfo.ObjectOf, hfield, hfieldfree2, he]
    simp [DefinitionOf, selectorDefinition, hsel]

/-- C4, amended, at the sample package: `v.N`, the field an int, resolves to
the Type Definition of `S`. -/
theorem definitionOf_struct_field_witness :
    sampleIndex.DefinitionOf sampleGetIdentifier "app" (.selectorExpr (.ident ⟨"v", 1⟩) ⟨"N", 2⟩) =
      .ok (some sampleStruct) :=
  (definitionOf_struct_field sampleGetIdentifier sampleIndex "app" "app" "S" "app" "v" "N"
    sampleInfo ⟨"v", 1⟩ ⟨"N", 2⟩ (.basic "int") sampleStruct rfl rfl (by decide) (by decide)
    (by decide) (by decide) (by decide)).1 [] (by decide) (by decide)

/-! ## Properties of `Mains` and `Runtime` -/

theorem sortStrings_perm (l : List String) : (sortStrings l).Perm l :=
  List.perm_insertionSort strLe l

theorem sortStrings_sorted (l : List String) : (sortStrings l).Sorted strLe :=
  List.sorted_insertionSort strLe l

theorem sortStrings_congr {l₁ l₂ : List String} (h : l₁.Perm l₂) :
    sortStrings l₁ = sortStrings l₂ :=
  List.eq_of_perm_of_sorted (((sortStrings_perm l₁).trans h).trans (sortStrings_perm l₂).symm)
    (sortStrings_sorted l₁) (sortStrings_sorted l₂)

theorem selfRegistered_get {i : Index} (h : SelfRegistered i) {k : String} {d : Definition}
    (hk : i.Get k = some d) : i.Get d.id = some d :=
  h ⟨k, d⟩ (AList.mem_lookup_iff.mp hk)

/-- A list of keys each of which is the ID of the Definition found under it is
looked up to a list of present Definitions with exactly these IDs. -/
theorem lookup_keys_eq (f : String → Option Definition) (keys : List String)
    (h : ∀ x ∈ keys, ∃ d, f x = some d ∧ d.id = x) :
    ∃ ds : List Definition, keys.map f = ds.map some ∧ ds.map (fun d => d.id) = keys := by
  induction keys with
  | nil => exact ⟨[], rfl, rfl⟩
  | cons x xs ih =>
    obtain ⟨d, hd, hid⟩ := h x (List.mem_cons_self x xs)
    obtain ⟨ds, h1, h2⟩ := ih (fun y hy => h y (List.mem_cons_of_mem x hy))
    exact ⟨d :: ds, by simp [hd, h1], by simp [hid, h2]⟩

theorem mainIDs_eq (i : Index) (initial : List PackageInfo) :
    i.mainIDs initial =
      (initial.filterMap (fun info => i.Get (info.path ++ " main"))).map (fun d => d.id) := by
  unfold mainIDs Get
  rw [List.map_filterMap]

theorem mem_mainIDs {i : Index} {initial : List PackageInfo} {x : String} :
    x ∈ i.mainIDs initial ↔
      ∃ info ∈ initial, ∃ d, i.Get (info.path ++ " main") = some d ∧ d.id = x := by
  simp [mainIDs_eq, List.mem_filterMap]
  constructor
  · rintro ⟨d, ⟨info, hin, hd⟩, hid⟩
    exact ⟨info, hin, d, hd, hid⟩
  · rintro ⟨info, hin, d, hd, hid⟩
    exact ⟨d, ⟨info, hin, hd⟩, hid⟩

theorem mem_runtimeIDs {iter : List (Sigma fun _ : String => Definition)} {names : List String}
    {x : String} :
    x ∈ runtimeIDs iter names ↔
      ∃ e ∈ iter, e.2.fromRuntime = true ∧ e.2.name ∈ names ∧ e.2.id = x := by
  unfold runtimeIDs
  rw [List.mem_flatMap]
  constructor
  · rintro ⟨e, he, hx⟩
    by_cases hr : e.2.fromRuntime = true
    · simp only [hr, if_true, List.mem_map, List.mem_filter] at hx
      obtain ⟨n, ⟨hn, hname⟩, hid⟩ := hx
      have hname2 : e.2.name = n := by simpa using hname
      exact ⟨e, he, hr, hname2 ▸ hn, hid⟩
    · simp [hr] at hx
  · rintro ⟨e, he, hr, hn, hid⟩
    refine ⟨e, he, ?_⟩
    simp only [hr, if_true, List.mem_map, List.mem_filter]
    exact ⟨e.2.name, ⟨hn, by simp⟩, hid⟩

/-- C5, as stated, fails: after `Link("app main", strayMain)` the initially
requested package `app` has a Definition registered under `app main`, yet
`Mains()` holds no such Definition: its one entry is nil, the lookup of the
ID `elsewhere main`. -/
theorem mains_entries_counterexample :
    linkIndex.program.initialPackages.map (fun info => info.path) = ["app"] ∧
    linkIndex.Get "app main" = some strayMain ∧
    linkIndex.Mains = [none] := by
  decide

/-- C5, amended: in an index where every registered Definition is the one
registered under its own ID, `Mains()` is, up to order, the list of the
Definitions registered under `<p> main` for the initially requested packages
`p`, one entry for each such package that has one, every entry present; so
every entry is the Definition under `<p> main` of an initially requested
package. -/
theorem mains_entries (i : Index) (h : SelfRegistered i) :
    i.Mains.Perm
      ((i.program.initialPackages.filterMap
        (fun info => i.Get (info.path ++ " main"))).map some) ∧
    ∀ e ∈ i.Mains, ∃ info ∈ i.program.initialPackages, ∃ d,
      e = some d ∧ i.Get (info.path ++ " main") = some d := by
  have hperm : i.Mains.Perm
      ((i.program.initialPackages.filterMap
        (fun info => i.Get (info.path ++ " main"))).map some) := by
    unfold Mains mainsFrom
    refine ((sortStrings_perm _).map _).trans ?_
    rw [mainIDs_eq, List.map_map]
    refine List.Perm.of_eq (List.map_congr_left ?_)
    intro d hd
    obtain ⟨info, _, hget⟩ := List.mem_filterMap.mp hd
    exact selfRegistered_get h hget
  refine ⟨hperm, ?_⟩
  intro e he
  have he2 := hperm.mem_iff.mp he
  obtain ⟨d, hd, rfl⟩ := List.mem_map.mp he2
  obtain ⟨info, hin, hget⟩ := List.mem_filterMap.mp hd
  exact ⟨info, hin, d, rfl, hget⟩

/-- C5, amended, at an index filled by `AddDefinition`: the entry symbols of
the initial packages `app` and `lib` are returned and the one of the
transitively loaded package `dep` is not. -/
theorem mains_entries_witness :
    builtIndex.Mains.Perm [some appMain, some libMain] ∧
    builtIndex.Get "dep main" = some depMain ∧ some depMain ∉ builtIndex.Mains :=
  ⟨(mains_entries builtIndex (by decide)).1.trans (by decide), by decide, by decide⟩

/-- C6, as stated, fails: after `Link("app main", aliasB)`,
`Link("lib main", aliasC)`, `Link("b", underB)` and `Link("c", underC)`,
`Mains()` returns the Definitions with the IDs `z` and `a`, in this order. -/
theorem mains_sorted_counterexample :
    swapIndex.Mains = [some underB, some underC] ∧
    underB.id = "z" ∧ underC.id = "a" ∧ ¬ strLe underB.id underC.id := by
  decide

/-- C6, amended: in an index where every registered Definition is the one
registered under its own ID, every entry of `Mains()` is present and the list
is in ascending order of the entries' `ID()`; and in every index the list is
the same for every order in which the initial packages are enumerated. -/
theorem mains_sorted (i : Index) :
    (SelfRegistered i → ∃ ds : List Definition, i.Mains = ds.map some ∧
      (ds.map (fun d => d.id)).Sorted strLe) ∧
    ∀ initial : List PackageInfo, initial.Perm i.program.initialPackages →
      i.mainsFrom initial = i.Mains := by
  refine ⟨?_, ?_⟩
  · intro h
    obtain ⟨ds, h1, h2⟩ := lookup_keys_eq (fun id => i.defs.lookup id)
      (sortStrings (i.mainIDs i.program.initialPackages)) (by
        intro x hx
        have hx2 := (sortStrings_perm _).mem_iff.mp hx
        obtain ⟨info, _, d, hget, hid⟩ := mem_mainIDs.mp hx2
        exact ⟨d, hid ▸ selfRegistered_get h hget, hid⟩)
    refine ⟨ds, h1, ?_⟩
    rw [h2]
    exact sortStrings_sorted _
  · intro initial hperm
    unfold Mains mainsFrom mainIDs
    rw [sortStrings_congr (hperm.filterMap _)]

/-- C6, amended, at an index filled by `AddDefinition`: the entry symbols are
present and in ascending order of their IDs; and at that index as well as at
the index of the counterexample, filled by `Link`, `Mains()` is the same list
when `lib` is enumerated before `app`. -/
theorem mains_sorted_witness :
    (∃ ds : List Definition, builtIndex.Mains = ds.map some ∧
      (ds.map (fun d => d.id)).Sorted strLe) ∧
    builtIndex.mainsFrom [⟨"lib", fun _ => none⟩, ⟨"app", fun _ => none⟩] = builtIndex.Mains ∧
    ¬ SelfRegistered swapIndex ∧
    swapIndex.mainsFrom [⟨"lib", fun _ => none⟩, ⟨"app", fun _ => none⟩] = swapIndex.Mains :=
  ⟨(mains_sorted builtIndex).1 (by decide),
   (mains_sorted builtIndex).2 _ (List.Perm.swap _ _ []),
   by decide,
   (mains_sorted swapIndex).2 _ (List.Perm.swap _ _ [])⟩

/-- C7, as stated, fails: after `Link("app main", strayMain)` the Definition
`strayMain` is registered, is from the runtime and is named `main`, yet it
does not occur in `Runtime("main")`, whose one entry is nil. -/
theorem runtime_mem_counterexample :
    linkIndex.Get "app main" = some strayMain ∧
    strayMain.fromRuntime = true ∧ strayMain.name ∈ ["main"] ∧
    linkIndex.Runtime ["main"] = ([none], none) ∧
    some strayMain ∉ (linkIndex.Runtime ["main"]).1 := by
  decide

/-- C7, amended: in an index where every registered Definition is the one
registered under its own ID, a Definition occurs in the result of
`Runtime(names...)` if and only if it is registered, its `FromRuntime()` is
true and its `Name()` is one of the names, and no entry is nil; and in every
index the error result is nil and the result is empty when no registered
Definition matches. -/
theorem runtime_mem (i : Index) (names : List String) :
    (SelfRegistered i →
      (∀ d : Definition, some d ∈ (i.Runtime names).1 ↔
        (∃ k, i.Get k = some d) ∧ d.fromRuntime = true ∧ d.name ∈ names) ∧
      none ∉ (i.Runtime names).1) ∧
    (i.Runtime names).2 = none ∧
    ((∀ k d, i.Get k = some d → ¬ (d.fromRuntime = true ∧ d.name ∈ names)) →
      (i.Runtime names).1 = []) := by
  have hmem : ∀ o : Option Definition, o ∈ (i.Runtime names).1 ↔
      ∃ e ∈ i.defs.entries, e.2.fromRuntime = true ∧ e.2.name ∈ names ∧
        i.defs.lookup e.2.id = o := by
    intro o
    simp only [Runtime, runtimeFrom, List.mem_map]
    constructor
    · rintro ⟨x, hx, hlook⟩
      obtain ⟨e, he, hr, hn, hid⟩ := mem_runtimeIDs.mp ((sortStrings_perm _).mem_iff.mp hx)
      exact ⟨e, he, hr, hn, hid ▸ hlook⟩
    · rintro ⟨e, he, hr, hn, hlook⟩
      exact ⟨e.2.id, (sortStrings_perm _).mem_iff.mpr (mem_runtimeIDs.mpr ⟨e, he, hr, hn, rfl⟩),
        hlook⟩
  refine ⟨fun h => ⟨?_, ?_⟩, rfl, ?_⟩
  · intro d
    rw [hmem]
    constructor
    · rintro ⟨e, he, hr, hn, hlook⟩
      have := (h e he).symm.trans hlook
      have hd : e.2 = d := by simpa using this
      exact ⟨⟨e.1, AList.mem_lookup_iff.mpr (by rw [← hd]; exact he)⟩, hd ▸ hr, hd ▸ hn⟩
    · rintro ⟨⟨k, hk⟩, hr, hn⟩
      exact ⟨⟨k, d⟩, AList.mem_lookup_iff.mp hk, hr, hn, selfRegistered_get h hk⟩
  · rw [hmem]
    rintro ⟨e, he, _, _, hlook⟩
    have := (h e he).symm.trans hlook
    simp at this
  · intro hno
    have hids : runtimeIDs i.defs.entries names = [] := by
      apply List.eq_nil_iff_forall_not_mem.mpr
      intro x hx
      obtain ⟨e, he, hr, hn, _⟩ := mem_runtimeIDs.mp hx
      exact hno e.1 e.2 (AList.mem_lookup_iff.mpr he) ⟨hr, hn⟩
    simp [Runtime, runtimeFrom, hids, sortStrings]

/-- C7, amended, at an index filled by `AddDefinition`: `Runtime("Foo")` holds
the runtime Definition named `Foo` and not the user function of that name;
and at the index of the counterexample, filled by `Link`, the error result of
`Runtime("main")` is nil and `Runtime("Foo")`, which nothing matches, is
empty. -/
theorem runtime_mem_witness :
    some rtFoo ∈ (builtIndex.Runtime ["Foo"]).1 ∧ some userFoo ∉ (builtIndex.Runtime ["Foo"]).1 ∧
    builtIndex.Get "app Foo" = some userFoo ∧ userFoo.name = "Foo" ∧
    ¬ SelfRegistered linkIndex ∧
    (linkIndex.Runtime ["main"]).2 = none ∧
    (linkIndex.Runtime ["Foo"]).1 = [] :=
  have h := ((runtime_mem builtIndex ["Foo"]).1 (by decide)).1
  ⟨(h rtFoo).mpr ⟨⟨"runtime Foo", by decide⟩, by decide, by decide⟩,
   fun hmem => absurd ((h userFoo).mp hmem).2.1 (by decide), by decide, by decide,
   by decide,
   (runtime_mem linkIndex ["main"]).2.1,
   (runtime_mem linkIndex ["Foo"]).2.2 (by
    intro k d hk
    have hent : (⟨k, d⟩ : Sigma fun _ : String => Definition) ∈ linkIndex.defs.entries :=
      AList.mem_lookup_iff.mp hk
    have hall : ∀ e ∈ linkIndex.defs.entries, e.2.name ∉ ["Foo"] := by decide
    exact fun hmatch => hall _ hent hmatch.2)⟩

/-- C8, as stated, fails: after `Link("app main", aliasB)`,
`Link("lib main", aliasC)`, `Link("b", underB)` and `Link("c", underC)`,
`Runtime("Foo")` returns the Definitions with the IDs `z` and `a`, in this
order. -/
theorem runtime_sorted_counterexample :
    swapIndex.Runtime ["Foo"] = ([some underB, some underC], none) ∧
    underB.id = "z" ∧ underC.id = "a" ∧ ¬ strLe underB.id underC.id := by
  decide

/-- C8, amended: in an index where every registered Definition is the one
registered under its own ID, every entry of `Runtime(names...)` is present
and the list is in ascending order of the entries' `ID()`; and in every index
the result is the same for every order in which the registry is iterated. -/
theorem runtime_sorted (i : Index) (names : List String) :
    (SelfRegistered i → ∃ ds : List Definition, (i.Runtime names).1 = ds.map some ∧
      (ds.map (fun d => d.id)).Sorted strLe) ∧
    ∀ iter : List (Sigma fun _ : String => Definition), iter.Perm i.defs.entries →
      i.runtimeFrom iter names = i.Runtime names := by
  refine ⟨?_, ?_⟩
  · intro h
    obtain ⟨ds, h1, h2⟩ := lookup_keys_eq (fun id => i.defs.lookup id)
      (sortStrings (runtimeIDs i.defs.entries names)) (by
        intro x hx
        obtain ⟨e, he, _, _, hid⟩ := mem_runtimeIDs.mp ((sortStrings_perm _).mem_iff.mp hx)
        exact ⟨e.2, hid ▸ h e he, hid⟩)
    refine ⟨ds, h1, ?_⟩
    rw [h2]
    exact sortStrings_sorted _
  · intro iter hperm
    unfold Runtime runtimeFrom runtimeIDs
    rw [sortStrings_congr (hperm.flatMap_right _)]

/-- C8, amended, at an index filled by `AddDefinition`: the entries of
`Runtime("Foo", "Bar")` are present and in ascending order of their IDs; and
at that index as well as at the index of the counterexample, filled by
`Link`, the result is the same when the registry is iterated in the reverse
order. -/
theorem runtime_sorted_witness :
    (∃ ds : List Definition, (builtIndex.Runtime ["Foo", "Bar"]).1 = ds.map some ∧
      (ds.map (fun d => d.id)).Sorted strLe) ∧
    builtIndex.runtimeFrom builtIndex.defs.entries.reverse ["Foo", "Bar"] =
      builtIndex.Runtime ["Foo", "Bar"] ∧
    ¬ SelfRegistered swapIndex ∧
    swapIndex.runtimeFrom swapIndex.defs.entries.reverse ["Foo"] = swapIndex.Runtime ["Foo"] :=
  ⟨(runtime_sorted builtIndex ["Foo", "Bar"]).1 (by decide),
   (runtime_sorted builtIndex ["Foo", "Bar"]).2 _ (List.reverse_perm _),
   by decide,
   (runtime_sorted swapIndex ["Foo"]).2 _ (List.reverse_perm _)⟩

/-! ## Failures and absent results -/

theorem typeToDef_fails_iff (name : String) (t : GoType) :
    (∃ e, typeToDef name t = .error e) ↔ rejectedSpec (unwrapAllSpec t) = true := by
  induction t with
  | pointer elem ih => simpa [typeToDef, unwrapAllSpec] using ih
  | slice elem ih => simpa [typeToDef, unwrapAllSpec] using ih
  | chan elem ih => simpa [typeToDef, unwrapAllSpec] using ih
  | method recv ih =>
    rw [show unwrapAllSpec (.method recv) = unwrapAllSpec recv from rfl, ← ih]
    cases h : typeToDef name recv with
    | error e => simp [typeToDef, h]
    | ok a =>
      rcases a with _ | ⟨a0, _ | ⟨a1, _ | ⟨a2, rest⟩⟩⟩ <;> simp [typeToDef, h]
  | basic n => simp [typeToDef, unwrapAllSpec, rejectedSpec]
  | interface ms =>
    cases ms <;> simp [typeToDef, unwrapAllSpec, rejectedSpec, GoType.Empty]
  | signature => simp [typeToDef, unwrapAllSpec, rejectedSpec]
  | named obj =>
    cases obj with
    | none => simp [typeToDef, unwrapAllSpec, rejectedSpec]
    | some o =>
      cases h : o.pkg <;> simp [typeToDef, unwrapAllSpec, rejectedSpec, h]
  | map k e _ _ => simp [typeToDef, unwrapAllSpec, rejectedSpec]
  | array e _ => simp [typeToDef, unwrapAllSpec, rejectedSpec]
  | struct fs => simp [typeToDef, unwrapAllSpec, rejectedSpec]
  | tuple => simp [typeToDef, unwrapAllSpec, rejectedSpec]

/-- C11: `typeToDef` fails if and only if unwrapping the descriptor through
pointer, slice and channel elements and signature receivers reaches a
non-empty interface, a named type with no owner object or a shape outside
basic, interface, slice, signature, named, pointer, map and channel; a basic
type, an empty interface, a map (whatever its key and element types) and a
named type whose owner has no package yield no key and no error. -/
theorem typeToDef_failure (name : String) (t : GoType) :
    ((∃ e, typeToDef name t = .error e) ↔ rejectedSpec (unwrapAllSpec t) = true) ∧
    (∀ b, typeToDef name (.basic b) = .ok []) ∧
    typeToDef name (.interface []) = .ok [] ∧
    (∀ k e, typeToDef name (.map k e) = .ok []) ∧
    (∀ n, typeToDef name (.named (some ⟨none, n⟩)) = .ok []) := by
  refine ⟨typeToDef_fails_iff name t, ?_, ?_, ?_, ?_⟩
  · intro b
    simp [typeToDef]
  · simp [typeToDef, GoType.Empty]
  · intro k e
    simp [typeToDef]
  · intro n
    simp [typeToDef]

/-- C11, at concrete descriptors: a method on a pointer to a slice of a
non-empty interface fails, and a map with an array key does not. -/
theorem typeToDef_failure_witness :
    (∃ e, typeToDef "M" (.method (.pointer (.slice (.interface ["Read"])))) = .error e) ∧
    typeToDef "m" (.map (.array (.basic "int")) .tuple) = .ok [] :=
  ⟨((typeToDef_failure "M" (.method (.pointer (.slice (.interface ["Read"]))))).1).mpr
    (by decide),
   (typeToDef_failure "m" .tuple).2.2.2.1 _ _⟩

/-- C12, as stated, fails: in the sample index after `Link("", emptyKeyDef)`
the identifier `N` of the known package `app` denotes an object of basic type
with no registration under `app N`, yet `identDefinition` returns the
Definition linked under the empty ID. -/
theorem identDefinition_absent_counterexample :
    (emptyKeyIndex.program.package "app").map (fun info => info.objectOf ⟨"N", 2⟩) =
      some (some ⟨some "app", "N", .basic "int"⟩) ∧
    emptyKeyIndex.Get "app N" = none ∧
    emptyKeyIndex.identDefinition "app" (some ⟨"N", 2⟩) = .ok (some emptyKeyDef) := by
  decide

/-- C12, amended: for every index and every identifier in a package known to
the program model, `identDefinition` returns absent with no error when the
identifier is nil or denotes no object and when it denotes an object that
belongs to no package; when it denotes an object without a registration under
`<objectPackagePath> <objectName>` whose type is basic it returns, with no
error, the lookup of the empty ID, which is absent when nothing is registered
under the empty ID. -/
theorem identDefinition_absent (i : Index) (packagePath : String) (info : PackageInfo)
    (hinfo : i.program.package packagePath = some info) :
    (∀ n, info.ObjectOf n = none → i.identDefinition packagePath n = .ok none) ∧
    (∀ n name t, info.ObjectOf n = some ⟨none, name, t⟩ →
      i.identDefinition packagePath n = .ok none) ∧
    (∀ n q name b, info.ObjectOf n = some ⟨some q, name, .basic b⟩ →
      i.Get (q ++ " " ++ name) = none →
      i.identDefinition packagePath n = .ok (i.Get "") ∧
      (i.Get "" = none → i.identDefinition packagePath n = .ok none)) := by
  refine ⟨?_, ?_, ?_⟩
  · intro n hn
    simp [identDefinition, hinfo, hn]
  · intro n name t hn
    simp [identDefinition, hinfo, hn]
  · intro n q name b hn hfree
    have hfree2 : AList.lookup (q ++ " " ++ name) i.defs = none := hfree
    have hres : i.identDefinition packagePath n = .ok (i.Get "") := by
      simp [identDefinition, hinfo, hn, hfree2, typeToDef, joinSpace_nil]
    exact ⟨hres, fun h => by rw [hres, h]⟩

/-- C12, amended, at the sample index: the field `N`, an int, and an
identifier that denotes nothing resolve to absent. -/
theorem identDefinition_absent_witness :
    sampleIndex.identDefinition "app" (some ⟨"N", 2⟩) = .ok none ∧
    sampleIndex.identDefinition "app" (some ⟨"len", 3⟩) = .ok none :=
  have h := identDefinition_absent sampleIndex "app" sampleInfo rfl
  ⟨((h.2.2 (some ⟨"N", 2⟩) "app" "N" "int" (by decide) (by decide)).2 (by decide)),
   h.1 (some ⟨"len", 3⟩) (by decide)⟩

/-- C13, as stated, fails: for a literal, a node with no underlying
identifier, `DefinitionOf` in a package missing from the program model
returns a plain absent result and no error. -/
theorem definitionOf_missing_package_counterexample :
    (sampleIndex.program.package "missing").isNone = true ∧
    sampleGetIdentifier (.basicLit "1") = .ok none ∧
    sampleIndex.DefinitionOf sampleGetIdentifier "missing" (.basicLit "1") = .ok none := by
  decide

/-- C13, amended: when the owner package is missing from the program model,
`DefinitionOf` returns the error "no package found" for every selector, every
bare identifier and every other node whose identifier-of projection yields an
identifier; for another node whose projection fails it returns the error of
the projection, and for one with no underlying identifier it returns absent
with no error. -/
theorem definitionOf_missing_package (getIdentifier : Node → Except Err (Option Ident))
    (i : Index) (packagePath : String) (hmiss : i.program.package packagePath = none) :
    (∀ x sel, i.DefinitionOf getIdentifier packagePath (.selectorExpr x sel) =
      .error .noPackage) ∧
    (∀ id, i.DefinitionOf getIdentifier packagePath (.ident id) = .error .noPackage) ∧
    (∀ n, (∀ x sel, n ≠ .selectorExpr x sel) → (∀ id, n ≠ .ident id) →
      (∀ id, getIdentifier n = .ok (some id) →
        i.DefinitionOf getIdentifier packagePath n = .error .noPackage) ∧
      (∀ e, getIdentifier n = .error e →
        i.DefinitionOf getIdentifier packagePath n = .error e) ∧
      (getIdentifier n = .ok none →
        i.DefinitionOf getIdentifier packagePath n = .ok none)) := by
  have hid : ∀ n, i.identDefinition packagePath n = .error .noPackage := by
    intro n
    simp [identDefinition, hmiss]
  refine ⟨?_, ?_, ?_⟩
  · intro x sel
    simp [DefinitionOf, selectorDefinition, hid]
  · intro id
    simp [DefinitionOf, hid]
  · intro n hsel hident
    cases n with
    | selectorExpr x sel => exact absurd rfl (hsel x sel)
    | ident id => exact absurd rfl (hident id)
    | callExpr f =>
      refine ⟨?_, ?_, ?_⟩ <;> intros <;> simp_all [DefinitionOf]
    | starExpr x =>
      refine ⟨?_, ?_, ?_⟩ <;> intros <;> simp_all [DefinitionOf]
    | basicLit v =>
      refine ⟨?_, ?_, ?_⟩ <;> intros <;> simp_all [DefinitionOf]

/-- C13, amended, at the sample index: `v.M`, `v` and `*v` in the missing
package `missing` all give the error "no package found". -/
theorem definitionOf_missing_package_witness :
    sampleIndex.DefinitionOf sampleGetIdentifier "missing"
      (.selectorExpr (.ident ⟨"v", 1⟩) ⟨"M", 2⟩) = .error .noPackage ∧
    sampleIndex.DefinitionOf sampleGetIdentifier "missing" (.ident ⟨"v", 1⟩) =
      .error .noPackage ∧
    sampleIndex.DefinitionOf sampleGetIdentifier "missing" (.starExpr (.ident ⟨"v", 1⟩)) =
      .error .noPackage :=
  have h := definitionOf_missing_package sampleGetIdentifier sampleIndex "missing" rfl
  ⟨h.1 _ _, h.2.1 _,
   (h.2.2 (.starExpr (.ident ⟨"v", 1⟩)) (by simp) (by simp)).1 ⟨"v", 1⟩ rfl⟩

/-! ## The registry and the import tables -/

/-- C16: after `AddDefinition(d)` the lookup `Get(d.ID())` returns `d`, also
when another Definition was registered under that ID before; `Get` of every
other ID and the import tables are unchanged; and `Get` of an ID that is not a
key of the registry returns absent (in particular in a new index). -/
theorem addDefinition_get (i : Index) (d : Definition) :
    (i.AddDefinition d).Get d.id = some d ∧
    (∀ d₀ : Definition, d₀.id = d.id →
      ((i.AddDefinition d₀).AddDefinition d).Get d.id = some d) ∧
    (∀ k, k ≠ d.id → (i.AddDefinition d).Get k = i.Get k) ∧
    (i.AddDefinition d).imports = i.imports ∧
    (∀ p, (i.AddDefinition d).GetImports p = i.GetImports p) ∧
    (∀ k, k ∉ i.defs.keys → i.Get k = none) ∧
    (∀ prog k, (New prog).Get k = none) := by
  refine ⟨?_, ?_, ?_, rfl, fun _ => rfl, ?_, ?_⟩
  · simp [AddDefinition, Get]
  · intro d₀ _
    simp [AddDefinition, Get]
  · intro k hk
    simp [AddDefinition, Get, AList.lookup_insert_ne hk]
  · intro k hk
    exact AList.lookup_eq_none.mpr hk
  · intro prog k
    simp [New, Get]

/-- C16, at the sample data: registering the function `M` after a Definition
with the same ID replaces it and leaves the struct `S` in place. -/
theorem addDefinition_get_witness :
    ((sampleIndex.AddDefinition { sampleClash with ref := 99 }).AddDefinition sampleClash).Get
      "app M" = some sampleClash ∧
    clashIndex.Get "app S" = sampleIndex.Get "app S" :=
  ⟨(addDefinition_get sampleIndex sampleClash).2.1 { sampleClash with ref := 99 } rfl,
   (addDefinition_get sampleIndex sampleClash).2.2.1 "app S" (by decide)⟩

theorem getImports_addImport (i : Index) (p a dep p' a' : String) :
    ((i.AddImport p a dep).GetImports p').lookup a' =
      if p' = p ∧ a' = a then some dep else (i.GetImports p').lookup a' := by
  have hown : ∀ deps : ImportMap,
      ({ i with imports := i.imports.insert p (deps.insert a dep) } : Index).GetImports p' =
        if p' = p then deps.insert a dep else i.GetImports p' := by
    intro deps
    by_cases hp : p' = p
    · subst hp
      simp only [GetImports, AList.lookup_insert, if_true]
    · simp only [GetImports, AList.lookup_insert_ne hp, if_neg hp]
  have hins : ∀ deps : ImportMap, (deps.insert a dep).lookup a' =
      if a' = a then some dep else deps.lookup a' := by
    intro deps
    by_cases ha : a' = a
    · subst ha
      rw [AList.lookup_insert, if_pos rfl]
    · rw [AList.lookup_insert_ne ha, if_neg ha]
  cases h : i.imports.lookup p with
  | none =>
    have hadd : i.AddImport p a dep =
        { i with imports := i.imports.insert p ((∅ : ImportMap).insert a dep) } := by
      simp only [AddImport, h]
    rw [hadd, hown]
    by_cases hp : p' = p
    · subst hp
      rw [if_pos rfl, hins]
      by_cases ha : a' = a
      · simp [ha]
      · simp [ha, GetImports, h]
    · simp [hp]
  | some deps =>
    have hadd : i.AddImport p a dep =
        { i with imports := i.imports.insert p (deps.insert a dep) } := by
      simp only [AddImport, h]
    rw [hadd, hown]
    by_cases hp : p' = p
    · subst hp
      rw [if_pos rfl, hins]
      by_cases ha : a' = a
      · simp [ha]
      · simp [ha, GetImports, h]
    · simp [hp]

theorem getImports_addImports (l : List (String × String × String)) (i : Index)
    (p a : String) :
    ((addImports l i).GetImports p).lookup a =
      match lastImport l p a with
      | some dep => some dep
      | none => (i.GetImports p).lookup a := by
  induction l generalizing i with
  | nil => rfl
  | cons e rest ih =>
    have hstep : addImports (e :: rest) i = addImports rest (i.AddImport e.1 e.2.1 e.2.2) := rfl
    rw [hstep, ih, getImports_addImport]
    cases hl : lastImport rest p a with
    | some dep => simp only [lastImport, hl]
    | none =>
      simp only [lastImport, hl]
      by_cases hm : e.1 = p ∧ e.2.1 = a
      · rw [if_pos hm, if_pos ⟨hm.1.symm, hm.2.symm⟩]
      · rw [if_neg hm, if_neg (fun h => hm ⟨h.1.symm, h.2.symm⟩)]

/-- C17: for a package path with no recorded imports `GetImports` returns the
empty table (a table, never nil, also in a new index); a call of `AddImport`
sets the path of that alias of that package and nothing else in the tables,
and leaves the registry alone; so after a sequence of `AddImport` calls on a
new index `GetImports` holds for every alias the path of the last call for
that package and alias, and no other alias. -/
theorem getImports_table (i : Index) :
    (∀ p, i.imports.lookup p = none → i.GetImports p = ∅) ∧
    (∀ prog p, (New prog).GetImports p = ∅) ∧
    (∀ p a dep p' a', ((i.AddImport p a dep).GetImports p').lookup a' =
      if p' = p ∧ a' = a then some dep else (i.GetImports p').lookup a') ∧
    (∀ p a dep, (i.AddImport p a dep).defs = i.defs) ∧
    (∀ prog l p a, ((addImports l (New prog)).GetImports p).lookup a = lastImport l p a) := by
  refine ⟨?_, ?_, getImports_addImport i, ?_, ?_⟩
  · intro p hp
    simp [GetImports, hp]
  · intro prog p
    simp [New, GetImports]
  · intro p a dep
    unfold AddImport
    cases i.imports.lookup p <;> rfl
  · intro prog l p a
    rw [getImports_addImports]
    cases lastImport l p a <;> simp [New, GetImports]

/-- C17, at a concrete sequence: the second path given for the alias `fmt` of
`app` wins, `lib` keeps its own table and `dep` has the empty one. -/
theorem getImports_table_witness :
    ((addImports [("app", "fmt", "fmt"), ("lib", "js", "joy/js"), ("app", "fmt", "joy/fmt")]
      (New sampleProgram)).GetImports "app").lookup "fmt" = some "joy/fmt" ∧
    ((addImports [("app", "fmt", "fmt"), ("lib", "js", "joy/js"), ("app", "fmt", "joy/fmt")]
      (New sampleProgram)).GetImports "dep").entries = [] :=
  ⟨((getImports_table sampleIndex).2.2.2.2 sampleProgram _ "app" "fmt").trans (by decide),
   by decide⟩

/-! ## The registry key invariant -/

theorem keyInvariant_get {i : Index} (h : KeyInvariant i) {k : String} {d : Definition}
    (hk : i.Get k = some d) : d.id = k :=
  h ⟨k, d⟩ (AList.mem_lookup_iff.mp hk)

theorem keyInvariant_selfRegistered {i : Index} (h : KeyInvariant i) : SelfRegistered i := by
  intro e he
  have hid : e.2.id = e.1 := h e he
  rw [hid]
  exact AList.mem_lookup_iff.mpr he

theorem reachable_keyInvariant {i : Index} (h : Reachable i) : KeyInvariant i := by
  induction h with
  | new program =>
    intro e he
    simp [New] at he
  | @addDefinition i d _ ih =>
    intro e he
    have hlook : (i.defs.insert d.id d).lookup e.1 = some e.2 := AList.mem_lookup_iff.mpr he
    by_cases hk : e.1 = d.id
    · rw [hk, AList.lookup_insert] at hlook
      have : d = e.2 := by simpa using hlook
      rw [← this, hk]
    · rw [AList.lookup_insert_ne hk] at hlook
      exact ih e (AList.mem_lookup_iff.mp hlook)
  | @addImport i p a dep _ ih =>
    intro e he
    have hdefs : (i.AddImport p a dep).defs = i.defs := by
      unfold AddImport
      cases i.imports.lookup p <;> rfl
    rw [hdefs] at he
    exact ih e he

theorem append_main_injective {a b : String} (h : a ++ " main" = b ++ " main") : a = b := by
  apply String.ext
  have h2 := congrArg String.data h
  simp only [String.data_append] at h2
  exact List.append_cancel_right h2

theorem mainIDs_nodup {i : Index} (hkey : KeyInvariant i) (initial : List PackageInfo)
    (hpaths : (initial.map (fun info => info.path)).Nodup) : (i.mainIDs initial).Nodup := by
  induction initial with
  | nil => simp [mainIDs]
  | cons info rest ih =>
    rw [List.map_cons, List.nodup_cons] at hpaths
    have hrest := ih hpaths.2
    cases hget : i.Get (info.path ++ " main") with
    | none =>
      have : i.mainIDs (info :: rest) = i.mainIDs rest := by
        have hget2 : AList.lookup (info.path ++ " main") i.defs = none := hget
        simp [mainIDs, hget2]
      rw [this]
      exact hrest
    | some d =>
      have : i.mainIDs (info :: rest) = d.id :: i.mainIDs rest := by
        have hget2 : AList.lookup (info.path ++ " main") i.defs = some d := hget
        simp [mainIDs, hget2]
      rw [this, List.nodup_cons]
      refine ⟨?_, hrest⟩
      intro hmem
      obtain ⟨info', hin, d', hget', hid⟩ := mem_mainIDs.mp hmem
      have h1 := keyInvariant_get hkey hget
      have h2 := keyInvariant_get hkey hget'
      have hpath : info'.path = info.path := append_main_injective (by rw [← h2, hid, h1])
      exact hpaths.1 (List.mem_map.mpr ⟨info', hin, hpath⟩)

theorem filter_name_length_le_one (x : String) (names : List String) (h : names.Nodup) :
    (names.filter (fun name => decide (x = name))).length ≤ 1 := by
  induction names with
  | nil => simp
  | cons n ns ih =>
    rw [List.nodup_cons] at h
    by_cases hx : x = n
    · subst hx
      have hnil : ns.filter (fun name => decide (x = name)) = [] := by
        apply List.filter_eq_nil_iff.mpr
        intro a ha hdec
        have : x = a := by simpa using hdec
        exact h.1 (this ▸ ha)
      simp [List.filter_cons, hnil]
    · simp [List.filter_cons, hx, ih h.2]

theorem runtimeIDs_nodup (iter : List (Sigma fun _ : String => Definition))
    (names : List String) (hnames : names.Nodup)
    (hids : (iter.map (fun e => e.2.id)).Nodup) : (runtimeIDs iter names).Nodup := by
  induction iter with
  | nil => simp [runtimeIDs]
  | cons e rest ih =>
    rw [List.map_cons, List.nodup_cons] at hids
    have hrest := ih hids.2
    have hcons : runtimeIDs (e :: rest) names =
        (if e.2.fromRuntime then
          (names.filter (fun name => decide (e.2.name = name))).map (fun _ => e.2.id)
        else []) ++ runtimeIDs rest names := by
      simp [runtimeIDs, List.flatMap_cons]
    rw [hcons, List.nodup_append]
    refine ⟨?_, hrest, ?_⟩
    · split
      · have hlen := filter_name_length_le_one e.2.name names hnames
        match hf : names.filter (fun name => decide (e.2.name = name)), hlen with
        | [], _ => simp
        | [_], _ => simp
        | _ :: _ :: _, hl => simp [hf] at hl
      · simp
    · intro x hx hx2
      have hxid : x = e.2.id := by
        split at hx
        · obtain ⟨_, _, rfl⟩ := List.mem_map.mp hx
          rfl
        · simp at hx
      obtain ⟨e', he', _, _, hid'⟩ := mem_runtimeIDs.mp hx2
      exact hids.1 (List.mem_map.mpr ⟨e', he', hid'.trans hxid⟩)

theorem entries_ids_nodup {i : Index} (hkey : KeyInvariant i) :
    (i.defs.entries.map (fun e => e.2.id)).Nodup := by
  have hmap : i.defs.entries.map (fun e => e.2.id) = i.defs.keys := by
    unfold AList.keys List.keys
    exact List.map_congr_left (fun e he => hkey e he)
  rw [hmap]
  exact i.defs.keys_nodup

theorem mains_present {i : Index} (h : SelfRegistered i) :
    ∃ ds : List Definition, i.Mains = ds.map some ∧
      ds.map (fun d => d.id) = sortStrings (i.mainIDs i.program.initialPackages) :=
  lookup_keys_eq (fun id => i.defs.lookup id)
    (sortStrings (i.mainIDs i.program.initialPackages)) (by
      intro x hx
      obtain ⟨_, _, d, hget, hid⟩ := mem_mainIDs.mp ((sortStrings_perm _).mem_iff.mp hx)
      exact ⟨d, hid ▸ selfRegistered_get h hget, hid⟩)

theorem runtime_present {i : Index} (h : SelfRegistered i) (names : List String) :
    ∃ ds : List Definition, (i.Runtime names).1 = ds.map some ∧
      ds.map (fun d => d.id) = sortStrings (runtimeIDs i.defs.entries names) :=
  lookup_keys_eq (fun id => i.defs.lookup id)
    (sortStrings (runtimeIDs i.defs.entries names)) (by
      intro x hx
      obtain ⟨e, he, _, _, hid⟩ := mem_runtimeIDs.mp ((sortStrings_perm _).mem_iff.mp hx)
      exact ⟨e.2, hid ▸ h e he, hid⟩)

theorem map_some_nodup_of_ids {ds : List Definition} {ids : List String}
    (hids : ds.map (fun d => d.id) = sortStrings ids) (hnodup : ids.Nodup) :
    (ds.map some).Nodup := by
  have h1 : (ds.map (fun d => d.id)).Nodup := by
    rw [hids]
    exact (sortStrings_perm ids).nodup_iff.mpr hnodup
  exact (List.Nodup.of_map _ h1).map (Option.some_injective _)

theorem occurrences_eq_one {d : Definition} {l : List (Option Definition)} (hnodup : l.Nodup)
    (hmem : some d ∈ l) : occurrences d l = 1 := by
  induction l with
  | nil => simp at hmem
  | cons e es ih =>
    rw [List.nodup_cons] at hnodup
    by_cases he : e = some d
    · subst he
      have hnil : es.filter (fun e => decide (e = some d)) = [] := by
        apply List.filter_eq_nil_iff.mpr
        intro a ha hdec
        have : a = some d := by simpa using hdec
        exact hnodup.1 (this ▸ ha)
      simp [occurrences, List.filter_cons, hnil]
    · have hmem2 : some d ∈ es := by
        rcases List.mem_cons.mp hmem with h | h
        · exact absurd h.symm he
        · exact h
      have := ih hnodup.2 hmem2
      simpa [occurrences, List.filter_cons, he] using this

/-- C20, as stated, fails: the index of a program with two initial packages of
the path `app`, reached from `New` by `AddDefinition(appMain)` alone, returns
the Definition registered under `app main` twice from `Mains()`. -/
theorem reachable_once_counterexample :
    Reachable dupIndex ∧
    dupIndex.Get "app main" = some appMain ∧
    dupIndex.Mains = [some appMain, some appMain] ∧
    occurrences appMain dupIndex.Mains = 2 :=
  ⟨Reachable.addDefinition _ (Reachable.new _), by decide, by decide, by decide⟩

/-- C20, amended: in every index reachable from `New` by `AddDefinition` and
`AddImport` calls only, every registered key `k` satisfies `Get(k).ID() == k`;
hence `Mains()` and `Runtime(names...)` never hold an absent entry,
`Runtime(names...)` with pairwise distinct names returns each matching
Definition exactly once, and `Mains()` returns the Definition of each initial
package that has one exactly once when the initial packages have pairwise
distinct paths. -/
theorem reachable_once (i : Index) (names : List String) (h : Reachable i) :
    (∀ k d, i.Get k = some d → d.id = k) ∧
    none ∉ i.Mains ∧
    none ∉ (i.Runtime names).1 ∧
    (names.Nodup → ∀ k d, i.Get k = some d → d.fromRuntime = true → d.name ∈ names →
      occurrences d (i.Runtime names).1 = 1) ∧
    ((i.program.initialPackages.map (fun info => info.path)).Nodup →
      ∀ info ∈ i.program.initialPackages, ∀ d, i.Get (info.path ++ " main") = some d →
        occurrences d i.Mains = 1) := by
  have hkey := reachable_keyInvariant h
  have hself := keyInvariant_selfRegistered hkey
  obtain ⟨ms, hms, hmsid⟩ := mains_present hself
  obtain ⟨rs, hrs, hrsid⟩ := runtime_present hself names
  refine ⟨fun k d hk => keyInvariant_get hkey hk, ?_, ?_, ?_, ?_⟩
  · rw [hms]
    simp
  · rw [hrs]
    simp
  · intro hnames k d hk hr hn
    apply occurrences_eq_one
    · rw [hrs]
      exact map_some_nodup_of_ids hrsid
        (runtimeIDs_nodup _ names hnames (entries_ids_nodup hkey))
    · have hid : d.id ∈ sortStrings (runtimeIDs i.defs.entries names) :=
        (sortStrings_perm _).mem_iff.mpr
          (mem_runtimeIDs.mpr ⟨⟨k, d⟩, AList.mem_lookup_iff.mp hk, hr, hn, rfl⟩)
      have hlook : i.defs.lookup d.id = some d := selfRegistered_get hself hk
      exact List.mem_map.mpr ⟨d.id, hid, hlook⟩
  · intro hpaths info hin d hget
    apply occurrences_eq_one
    · rw [hms]
      exact map_some_nodup_of_ids hmsid (mainIDs_nodup hkey _ hpaths)
    · have hid : d.id ∈ sortStrings (i.mainIDs i.program.initialPackages) :=
        (sortStrings_perm _).mem_iff.mpr (mem_mainIDs.mpr ⟨info, hin, d, hget, rfl⟩)
      have hlook : i.defs.lookup d.id = some d := selfRegistered_get hself hget
      exact List.mem_map.mpr ⟨d.id, hid, hlook⟩

/-- C20, amended, at an index filled by `AddDefinition`: the keys are the
IDs, and `Mains()` holds the entry symbol of `app` and `Runtime("Foo", "Bar")`
the runtime Definition `Foo`, each once. -/
theorem reachable_once_witness :
    occurrences appMain builtIndex.Mains = 1 ∧
    occurrences rtFoo (builtIndex.Runtime ["Foo", "Bar"]).1 = 1 :=
  have h := reachable_once builtIndex ["Foo", "Bar"]
    (Reachable.addDefinition _ (Reachable.addDefinition _ (Reachable.addDefinition _
      (Reachable.addDefinition _ (Reachable.addDefinition _ (Reachable.addDefinition _
        (Reachable.new _)))))))
  ⟨h.2.2.2.2 (by decide) ⟨"app", fun _ => none⟩ (List.mem_cons_self _ _) appMain (by decide),
   h.2.2.2.1 (by decide) "runtime Foo" rtFoo (by decide) (by decide) (by decide)⟩

end Index

/-! ## Properties of value Definitions -/

namespace Values

/-- C18, as stated, fails: for the declaration `var a, b` of package `app`,
`Value` builds the ID `app a,b`, and after `AddDefinition` the direct lookups
`Get("app a")` and `Get("app b")` used by `identDefinition` find nothing. -/
theorem value_id_counterexample :
    (Value sampleExported valueInfo [⟨"a", 1⟩, ⟨"b", 2⟩]).map (fun d => d.ID) = some "app a,b" ∧
    ((Index.New valueProgram).AddDefinition (pairValue.toDefinition 1)).Get "app a" = none ∧
    ((Index.New valueProgram).AddDefinition (pairValue.toDefinition 1)).Get "app b" = none ∧
    ((Index.New valueProgram).AddDefinition (pairValue.toDefinition 1)).identDefinition "app"
      (some ⟨"a", 7⟩) = .ok none := by
  decide

/-- C18, amended: the ID of a value Definition built by `Value` is
`<packagePath> <names>`, the declared names joined by commas; so for a value
declaration of package `p` with exactly one declared name `n`, after
`AddDefinition` the lookup `Get("p n")` returns that value Definition, and so
does `identDefinition` on every identifier, in a known package, that denotes
an object of package `p` named `n`. -/
theorem value_id (isExported : Object → Bool) (info : PackageInfo) (names : List Ident)
    (d : Values) (hd : Value isExported info names = some d) :
    d.ID = info.path ++ " " ++ joinComma (names.map (fun ident => ident.name)) ∧
    (∀ n : Ident, names = [n] → ∀ (i : Index) (ref : Nat),
      (i.AddDefinition (d.toDefinition ref)).Get (info.path ++ " " ++ n.name) =
        some (d.toDefinition ref) ∧
      ∀ (packagePath : String) (owner : PackageInfo) (u : Ident) (t : GoType),
        i.program.package packagePath = some owner →
        owner.objectOf u = some ⟨some info.path, n.name, t⟩ →
        (i.AddDefinition (d.toDefinition ref)).identDefinition packagePath (some u) =
          .ok (some (d.toDefinition ref))) := by
  have hid : d.id = info.path ++ " " ++ joinComma (names.map (fun ident => ident.name)) := by
    unfold Value at hd
    split at hd
    · have := Option.some.inj hd
      rw [← this]
      rfl
    · exact absurd hd (by simp)
  refine ⟨hid, ?_⟩
  intro n hn i ref
  have hkey : (d.toDefinition ref).id = info.path ++ " " ++ n.name := by
    show d.id = _
    rw [hid, hn]
    rfl
  have hget : (i.AddDefinition (d.toDefinition ref)).Get (info.path ++ " " ++ n.name) =
      some (d.toDefinition ref) := by
    rw [← hkey]
    simp [Index.AddDefinition, Index.Get]
  refine ⟨hget, ?_⟩
  intro packagePath owner u t hpkg hobj
  have hpkg2 : (i.AddDefinition (d.toDefinition ref)).program.package packagePath =
      some owner := hpkg
  have hget2 : AList.lookup (info.path ++ " " ++ n.name)
      (i.AddDefinition (d.toDefinition ref)).defs = some (d.toDefinition ref) := hget
  simp [Index.identDefinition, hpkg2, PackageInfo.ObjectOf, hobj, hget2]

/-- C18, amended, at the declaration `var x` of package `app`: `Value` builds
`sampleValue`, which `Get("app x")` and `identDefinition` on an `x` return
after `AddDefinition`. -/
theorem value_id_witness :
    ((Index.New valueProgram).AddDefinition (sampleValue.toDefinition 1)).Get "app x" =
      some (sampleValue.toDefinition 1) ∧
    ((Index.New valueProgram).AddDefinition (sampleValue.toDefinition 1)).identDefinition "app"
      (some ⟨"x", 7⟩) = .ok (some (sampleValue.toDefinition 1)) :=
  have h := (value_id sampleExported valueInfo [⟨"x", 1⟩] sampleValue rfl).2 ⟨"x", 1⟩ rfl
    (Index.New valueProgram) 1
  ⟨h.1, h.2 "app" valueInfo ⟨"x", 7⟩ (.basic "int") rfl rfl⟩

/-- C19: the code at the claim's input.  `Omitted()` is false for every value
Definition; after the first, successful `Dependencies()` call with a walk
whose state marks the entity as omitted, the field `omit` of the Definition
is true and `Omitted()` still reports false. -/
theorem omitted_after_walk :
    (∀ d : Values, d.Omitted = false) ∧
    (Dependencies omitWalk 1 sampleWorld 0).map
      (fun x => (x.1.heap.map (fun d => (d.processed, d.omit_, d.Omitted)), x.2)) =
      .ok ([(true, true, false)], ([rtFoo], none)) :=
  ⟨fun _ => rfl, by decide⟩

theorem dependencies_processed (walk : Walk) (fuel : Nat) (w : World) (r : Nat) (d : Values)
    (hd : w.heap[r]? = some d) (hp : d.processed = true) :
    Dependencies walk (fuel + 1) w r = .ok (w, (d.deps, none)) := by
  simp [Dependencies, hd, hp]

theorem dependencies_unprocessed (walk : Walk) (fuel : Nat) (w : World) (r : Nat) (d : Values)
    (hd : w.heap[r]? = some d) (hp : d.processed = false) :
    Dependencies walk (fuel + 1) w r =
      finish r (walk (Dependencies walk fuel) { w with walks := r :: w.walks } r) := by
  simp only [Dependencies, hd, hp, process, finish]
  cases hw : walk (Dependencies walk fuel) { w with walks := r :: w.walks } r with
  | error s => simp
  | ok res =>
    obtain ⟨w', out⟩ := res
    cases out with
    | error e => simp
    | ok state =>
      cases hg : w'.heap[r]? with
      | none => simp [hg]
      | some d' =>
        have hlt : r < w'.heap.length := (List.getElem?_eq_some.mp hg).1
        simp [hg, List.getElem?_set_self hlt, copyState]

/-- A successful call leaves the Definition processed, with the returned list
as its cached list. -/
theorem dependencies_success_cached (walk : Walk) (fuel : Nat) (w w' : World) (r : Nat)
    (deps : List Definition) (h : Dependencies walk fuel w r = .ok (w', (deps, none))) :
    ∃ d', w'.heap[r]? = some d' ∧ d'.processed = true ∧ d'.deps = deps := by
  cases fuel with
  | zero => simp [Dependencies] at h
  | succ fuel =>
    cases hd : w.heap[r]? with
    | none => simp [Dependencies, hd] at h
    | some d =>
      by_cases hp : d.processed = true
      · rw [dependencies_processed walk fuel w r d hd hp] at h
        have h2 := Except.ok.inj h
        have hw : w = w' := congrArg Prod.fst h2
        have hdeps : d.deps = deps := congrArg (fun x => x.2.1) h2
        exact ⟨d, hw ▸ hd, hp, hdeps⟩
      · have hp2 : d.processed = false := by simpa using hp
        rw [dependencies_unprocessed walk fuel w r d hd hp2] at h
        cases hw : walk (Dependencies walk fuel) { w with walks := r :: w.walks } r with
        | error s => simp [hw, finish] at h
        | ok res =>
          obtain ⟨w₁, out⟩ := res
          cases out with
          | error e => simp [hw, finish] at h
          | ok state =>
            cases hg : w₁.heap[r]? with
            | none => simp [hw, hg, finish] at h
            | some d₁ =>
              simp only [hw, hg, finish] at h
              have h2 := Except.ok.inj h
              have hw' : ({ w₁ with heap := w₁.heap.set r (d₁.copyState state) } : World) = w' :=
                congrArg Prod.fst h2
              have hdeps : state.deps = deps := congrArg (fun x => x.2.1) h2
              have hlt : r < w₁.heap.length := (List.getElem?_eq_some.mp hg).1
              refine ⟨d₁.copyState state, ?_, rfl, hdeps⟩
              rw [← hw']
              simp [List.getElem?_set_self hlt]

theorem dependenciesTimes_processed (walk : Walk) (fuel n : Nat) (w : World) (r : Nat)
    (d : Values) (hd : w.heap[r]? = some d) (hp : d.processed = true) :
    DependenciesTimes walk (fuel + 1) n w r = .ok (w, List.replicate n (d.deps, none)) := by
  induction n with
  | zero => rfl
  | succ n ih =>
    simp [DependenciesTimes, dependencies_processed walk fuel w r d hd hp, ih,
      List.replicate_succ]

theorem mutualWalk_diverges (fuel : Nat) (walks : List Nat) (r : Nat) (hr : r = 0 ∨ r = 1) :
    Dependencies mutualWalk fuel { heap := mutualWorld.heap, walks := walks } r =
      .error .outOfFuel := by
  induction fuel generalizing walks r with
  | zero => rfl
  | succ fuel ih =>
    have hother : 1 - r = 0 ∨ 1 - r = 1 := by
      rcases hr with h | h <;> simp [h]
    rcases hr with h | h
    · subst h
      rw [dependencies_unprocessed mutualWalk fuel
        { heap := mutualWorld.heap, walks := walks } 0 sampleValue rfl rfl]
      simp only [mutualWalk]
      rw [ih (0 :: walks) (1 - 0) hother]
      rfl
    · subst h
      rw [dependencies_unprocessed mutualWalk fuel
        { heap := mutualWorld.heap, walks := walks } 1
        { sampleValue with name := "Y", id := "app Y" } rfl rfl]
      simp only [mutualWalk]
      rw [ih (1 :: walks) (1 - 1) hother]
      rfl

/-- C14, as stated, fails: with a walk that fails, two `Dependencies()` calls on
the value Definition `x` both return the error, and the record of walks shows
that the walk was started by each of them. -/
theorem dependencies_once_counterexample :
    (DependenciesTimes failingWalk 1 2 sampleWorld 0).map (fun x => (x.1.walks, x.2)) =
      .ok ([0, 0], [([], some (.util "unresolved")), ([], some (.util "unresolved"))]) := by
  decide

/-- C14, amended: once a `Dependencies()` call on a value Definition has
succeeded, every later call, whatever the walk would do, returns the list of
that call and leaves the world, the record of started walks included,
unchanged: the walk is not performed again and all these calls return
identical content.  A call on an unprocessed Definition whose walk fails
returns the error and assigns nothing, so the next call walks again. -/
theorem dependencies_once (walk : Walk) (fuel : Nat) (w w' : World) (r : Nat)
    (deps : List Definition) (hfirst : Dependencies walk fuel w r = .ok (w', (deps, none))) :
    (∀ (walk₂ : Walk) (fuel₂ : Nat),
      Dependencies walk₂ (fuel₂ + 1) w' r = .ok (w', (deps, none))) ∧
    (∀ (walk₂ : Walk) (fuel₂ n : Nat),
      DependenciesTimes walk₂ (fuel₂ + 1) n w' r = .ok (w', List.replicate n (deps, none))) ∧
    (∀ (walk₂ : Walk) (fuel₂ : Nat) (v v₁ : World) (d : Values) (e : Err),
      v.heap[r]? = some d → d.processed = false →
      walk₂ (Dependencies walk₂ fuel₂) { v with walks := r :: v.walks } r = .ok (v₁, .error e) →
      Dependencies walk₂ (fuel₂ + 1) v r = .ok (v₁, ([], some e))) := by
  obtain ⟨d', hd', hp', hdeps⟩ := dependencies_success_cached walk fuel w w' r deps hfirst
  refine ⟨?_, ?_, ?_⟩
  · intro walk₂ fuel₂
    rw [dependencies_processed walk₂ fuel₂ w' r d' hd' hp', hdeps]
  · intro walk₂ fuel₂ n
    rw [dependenciesTimes_processed walk₂ fuel₂ n w' r d' hd' hp', hdeps]
  · intro walk₂ fuel₂ v v₁ d e hd hp hwalk
    rw [dependencies_unprocessed walk₂ fuel₂ v r d hd hp, hwalk]
    rfl

/-- C14, amended, at the value Definition `x`: after the successful first call
three further calls, made with a walk that would fail, return the list of the
first call and start no walk. -/
theorem dependencies_once_witness :
    DependenciesTimes failingWalk 1 3 processedWorld 0 =
      .ok (processedWorld, [([rtFoo], none), ([rtFoo], none), ([rtFoo], none)]) :=
  (dependencies_once omitWalk 1 sampleWorld processedWorld 0 [rtFoo] rfl).2.1 failingWalk 0 3

/-- C15, as stated, fails: for two value Definitions whose walks call
`Dependencies()` on each other, the flag of the first is still unset when the
walk of the second calls back, which starts the walk of the first again; no
bound on the depth of calls lets `Dependencies()` on either of them return. -/
theorem dependencies_reentrant_counterexample :
    (mutualWorld.heap.map (fun d => d.processed) = [false, false]) ∧
    (∀ fuel, Dependencies mutualWalk fuel mutualWorld 0 = .error .outOfFuel) ∧
    (∀ fuel, Dependencies mutualWalk fuel mutualWorld 1 = .error .outOfFuel) :=
  ⟨by decide, fun fuel => mutualWalk_diverges fuel [] 0 (Or.inl rfl),
   fun fuel => mutualWalk_diverges fuel [] 1 (Or.inr rfl)⟩

/-- C15, amended: in a value Definition the flag `processed` is set after the
dependency walk has returned without error, together with the fields of the
state: a `Dependencies()` call on an unprocessed Definition starts the walk in
a world where the flag of the Definition is still unset and sets it when the
walk has succeeded; a call on a processed Definition observes the flag and
returns the cached list without starting a walk. -/
theorem dependencies_flag_after_walk (walk : Walk) (fuel : Nat) (w : World) (r : Nat)
    (d : Values) (hd : w.heap[r]? = some d) :
    (d.processed = true → Dependencies walk (fuel + 1) w r = .ok (w, (d.deps, none))) ∧
    (d.processed = false →
      Dependencies walk (fuel + 1) w r =
        finish r (walk (Dependencies walk fuel) { w with walks := r :: w.walks } r) ∧
      ({ w with walks := r :: w.walks } : World).heap[r]? = some d) ∧
    (∀ state : WalkState, (d.copyState state).processed = true ∧
      (d.copyState state).deps = state.deps) := by
  refine ⟨dependencies_processed walk fuel w r d hd, ?_, fun _ => ⟨rfl, rfl⟩⟩
  intro hp
  exact ⟨dependencies_unprocessed walk fuel w r d hd hp, hd⟩

/-- C15, amended, at the value Definition `x`: the first call performs the
walk and sets the flag afterwards; a call on the processed Definition returns
the cached list. -/
theorem dependencies_flag_after_walk_witness :
    (Dependencies omitWalk 1 sampleWorld 0).map
      (fun x => (x.1.heap.map (fun d => d.processed), x.1.walks, x.2)) =
      .ok ([true], [0], ([rtFoo], none)) ∧
    Dependencies failingWalk 1 processedWorld 0 = .ok (processedWorld, ([rtFoo], none)) :=
  ⟨by
    rw [((dependencies_flag_after_walk omitWalk 0 sampleWorld 0 sampleValue rfl).2.1 rfl).1]
    decide,
   (dependencies_flag_after_walk failingWalk 0 processedWorld 0 _ rfl).1 rfl⟩

end Values

end Joy
